import Mathlib

/-! # The virtual clock of `smartclock` (`mock_clock.go`)

A shallow embedding of `MockClock` and of the part of Go's `container/heap`
it calls, followed by theorems about `MoveTo`, `AfterFunc` and the timer
handles.

Modelling conventions.

* An instant (`time.Time`) and a duration (`time.Duration`) are integers, a
  number of nanoseconds; `Add` is `+`, `Before`/`After`/`Equal` are `<`, `>`,
  `=`.  The range limits of `time.Time` are not modelled.
* A `*MockTimer` is an address: the index of the timer in `MockClock.timers`,
  the list of every `MockTimer` object allocated so far.  Pointer equality is
  equality of addresses; two timers may carry the same `ID`.
* A callback (`Func`) is client code.  The client is a parameter `env`: closure
  `k`, called after the history `tr` of callback invocations, performs the
  calls `env k tr` on the clock, in order.  A callback may call `AfterFunc`,
  `After`, `Stop` and `Reset`; it does not call `MoveTo`.  The history grows at
  every invocation, so the calls made along any one execution of a Go client
  are those of some `env`; a theorem for every `env` covers every such client.
* Every call of a `Func` is recorded in `MockClock.trace`.
* Go ranges over a map in an unspecified order: `processUpdatedTimers` takes
  the order as an argument (`rangeOrder`).
* The mutexes are not modelled: the calls are made from one goroutine.
* Loops that Go does not bound (`MoveTo`) take a number of iterations; the
  result says whether the loop ended within it.
-/

namespace smartclock

/-! ## Data model -/

/-- The two kinds of deferred update, `MockTimerUpdateType`. -/
inductive MockTimerUpdateType where
  | ResetMockTimerUpdateType
  | StopMockTimerUpdateType
  deriving DecidableEq, Repr

/-- A deferred update, `MockTimerUpdate`; the field `Type` of the source is
`Kind` here. A stop carries the zero `Date`. -/
structure MockTimerUpdate where
  Kind : MockTimerUpdateType
  Date : Int
  deriving DecidableEq, Repr

/-- A timer, `MockTimer`. `Func` is `some k` for the client closure `k` given
to `AfterFunc` and `none` for the channel send installed by `After`; `handle`
says that `resetFn` and `stopFn` are set, which `AfterFunc` does and `After`
does not. -/
structure MockTimer where
  ID : Int
  Date : Int
  Func : Option Nat
  handle : Bool
  deriving DecidableEq, Repr

/-- One call of a timer's `Func`: the address of the timer, its `Date` and the
clock's `baseTime` at the call. -/
structure Fired where
  timer : Nat
  date : Int
  now : Int
  deriving DecidableEq, Repr

/-- The clock, `MockClock`, with the memory of timers it points into and the
record of callback invocations. `activeTimersQueue` is the `PriorityQueue`
slice, `inactiveTimers` and `updatedTimerUpdates` are the two maps. -/
structure MockClock where
  baseTime : Int
  timersCounter : Int
  activeTimersQueue : List Nat
  inactiveTimers : List Nat
  updatedTimerUpdates : List (Nat × MockTimerUpdate)
  timers : List MockTimer
  trace : List Fired
  deriving DecidableEq, Repr

/-- A call that client code makes on the clock or on a timer handle. -/
inductive Call where
  | AfterFunc (duration : Int) (fn : Nat)
  | After (d : Int)
  | Stop (timer : Nat)
  | Reset (timer : Nat) (d : Int)
  deriving DecidableEq, Repr

/-- Client code: the calls closure `k` makes when invoked after the history
`tr` (which ends with the invocation itself). -/
abbrev Client := Nat → List Fired → List Call

/-! ## Go maps -/

/-- Assignment `m[k] = v` on a map kept as a list of entries with distinct
keys. -/
def mapSet (m : List (Nat × MockTimerUpdate)) (k : Nat) (v : MockTimerUpdate) :
    List (Nat × MockTimerUpdate) :=
  match m with
  | [] => [(k, v)]
  | (k', v') :: rest => if k' = k then (k, v) :: rest else (k', v') :: mapSet rest k v

/-- Lookup `m[k]`. -/
def mapGet (m : List (Nat × MockTimerUpdate)) (k : Nat) : Option MockTimerUpdate :=
  match m with
  | [] => none
  | (k', v') :: rest => if k' = k then some v' else mapGet rest k

/-- Insertion `s[k] = struct{}{}` into a set kept as a list. -/
def setInsert (s : List Nat) (k : Nat) : List Nat :=
  if k ∈ s then s else s ++ [k]

/-- The order in which `range` visits the entries of a map: entry
`pick₀ mod len` first, then entry `pick₁ mod (len - 1)` of the rest, and so
on; the entries left when `pick` ends come in stored order. Every order is
`rangeOrder pick m` for some `pick`. -/
def rangeOrder {α : Type} : List Nat → List α → List α
  | [], m => m
  | _ :: _, [] => []
  | i :: pick, x :: m =>
    ((x :: m).getD (i % (x :: m).length) x) ::
      rangeOrder pick ((x :: m).eraseIdx (i % (x :: m).length))

/-! ## `PriorityQueue` and `container/heap` -/

/-- The timer at an address; an address outside the memory reads as a blank
timer (no Go pointer is such an address). -/
def deref (timers : List MockTimer) (p : Nat) : MockTimer :=
  timers.getD p ⟨0, 0, none, false⟩

namespace PriorityQueue

/-- `pq.Len()`. -/
def Len (pq : List Nat) : Nat := pq.length

/-- `pq.Less(i, j)`: earlier `Date` first, and on equal dates smaller `ID`
first. -/
def Less (timers : List MockTimer) (pq : List Nat) (i j : Nat) : Bool :=
  if (deref timers (pq.getD i 0)).Date = (deref timers (pq.getD j 0)).Date then
    decide ((deref timers (pq.getD i 0)).ID < (deref timers (pq.getD j 0)).ID)
  else
    decide ((deref timers (pq.getD i 0)).Date < (deref timers (pq.getD j 0)).Date)

/-- `pq.Swap(i, j)`. -/
def Swap (pq : List Nat) (i j : Nat) : List Nat :=
  (pq.set i (pq.getD j 0)).set j (pq.getD i 0)

/-- `pq.Push(x)`: append, with no reordering. -/
def Push (pq : List Nat) (x : Nat) : List Nat := pq ++ [x]

/-- `pq.Pop()`: the last element and the slice without it. -/
def Pop (pq : List Nat) : Nat × List Nat :=
  (pq.getD (pq.length - 1) 0, pq.take (pq.length - 1))

end PriorityQueue

namespace heap

open PriorityQueue

/-- The loop of `heap.down(h, i, n)`; it runs at most `fuel` times, and `i`
grows at each turn, so `n` turns are enough. -/
def downLoop (timers : List MockTimer) : Nat → List Nat → Nat → Nat → List Nat
  | 0, pq, _, _ => pq
  | fuel + 1, pq, i, n =>
    if 2 * i + 1 ≥ n then pq
    else
      let j := if 2 * i + 2 < n && Less timers pq (2 * i + 2) (2 * i + 1)
               then 2 * i + 2 else 2 * i + 1
      if !Less timers pq j i then pq
      else downLoop timers fuel (Swap pq i j) j n

/-- `heap.down(h, i0, n)` (its boolean result is not used by `Init`, `Push`
or `Pop`). -/
def down (timers : List MockTimer) (pq : List Nat) (i0 n : Nat) : List Nat :=
  downLoop timers n pq i0 n

/-- The loop of `heap.up(h, j)`; `j` shrinks at each turn, so `j + 1` turns
are enough. -/
def upLoop (timers : List MockTimer) : Nat → List Nat → Nat → List Nat
  | 0, pq, _ => pq
  | fuel + 1, pq, j =>
    if (j - 1) / 2 = j || !Less timers pq j ((j - 1) / 2) then pq
    else upLoop timers fuel (Swap pq ((j - 1) / 2) j) ((j - 1) / 2)

/-- `heap.up(h, j)`. -/
def up (timers : List MockTimer) (pq : List Nat) (j : Nat) : List Nat :=
  upLoop timers (j + 1) pq j

/-- The loop of `heap.Init`: `down(h, i, n)` for `i = k - 1, ..., 0`. -/
def InitLoop (timers : List MockTimer) (n : Nat) : Nat → List Nat → List Nat
  | 0, pq => pq
  | k + 1, pq => InitLoop timers n k (down timers pq k n)

/-- `heap.Init(h)`. -/
def Init (timers : List MockTimer) (pq : List Nat) : List Nat :=
  InitLoop timers (Len pq) (Len pq / 2) pq

/-- `heap.Push(h, x)`: append, then sift the new element up. -/
def Push (timers : List MockTimer) (pq : List Nat) (x : Nat) : List Nat :=
  up timers (PriorityQueue.Push pq x) (Len (PriorityQueue.Push pq x) - 1)

/-- `heap.Pop(h)`: swap the first and the last element, sift the new first
element down among the others, and take the last element off. -/
def Pop (timers : List MockTimer) (pq : List Nat) : Nat × List Nat :=
  PriorityQueue.Pop (down timers (Swap pq 0 (Len pq - 1)) 0 (Len pq - 1))

end heap

/-! ## `MockClock` -/

/-- `Mock(t, baseTime)`. -/
def Mock (baseTime : Int) : MockClock :=
  { baseTime := baseTime, timersCounter := 0,
    activeTimersQueue := heap.Init [] [], inactiveTimers := [],
    updatedTimerUpdates := [], timers := [], trace := [] }

namespace MockClock

/-- `mc.Now()`. -/
def Now (mc : MockClock) : Int := mc.baseTime

/-- `mc.isTimerActive(timer)`. -/
def isTimerActive (mc : MockClock) (timer : Nat) : Bool :=
  mc.activeTimersQueue.any (fun qtimer => qtimer == timer)

/-- `mc.pushToInactiveTimers(timer)`. -/
def pushToInactiveTimers (mc : MockClock) (timer : Nat) : MockClock :=
  { mc with inactiveTimers := setInsert mc.inactiveTimers timer }

/-- `mc.deleteFromActiveTimers(timer)`. -/
def deleteFromActiveTimers (mc : MockClock) (timer : Nat) : MockClock :=
  { mc with activeTimersQueue :=
      heap.Init mc.timers (mc.activeTimersQueue.filter (fun atimer => !(atimer == timer))) }

/-- The assignment `timer.Date = date`. -/
def setDate (mc : MockClock) (timer : Nat) (date : Int) : MockClock :=
  { mc with timers := mc.timers.modify (fun t => { t with Date := date }) timer }

/-- The statement `heap.Init(&mc.activeTimersQueue)`. -/
def heapInit (mc : MockClock) : MockClock :=
  { mc with activeTimersQueue := heap.Init mc.timers mc.activeTimersQueue }

/-- The statement `heap.Push(&mc.activeTimersQueue, timer)`. -/
def heapPush (mc : MockClock) (timer : Nat) : MockClock :=
  { mc with activeTimersQueue := heap.Push mc.timers mc.activeTimersQueue timer }

/-- The body of the loop of `processUpdatedTimers` for one map entry. -/
def applyUpdate (mc : MockClock) (entry : Nat × MockTimerUpdate) : MockClock :=
  match entry.2.Kind with
  | .ResetMockTimerUpdateType =>
    if (mc.setDate entry.1 entry.2.Date).isTimerActive entry.1 then
      (mc.setDate entry.1 entry.2.Date).heapInit
    else
      (mc.setDate entry.1 entry.2.Date).heapPush entry.1
  | .StopMockTimerUpdateType =>
    if mc.isTimerActive entry.1 then
      (mc.deleteFromActiveTimers entry.1).pushToInactiveTimers entry.1
    else mc

/-- `mc.processUpdatedTimers()`, ranging over the map in the order `pick`
selects. The map itself is left as it is. -/
def processUpdatedTimers (pick : List Nat) (mc : MockClock) : MockClock :=
  (rangeOrder pick mc.updatedTimerUpdates).foldl applyUpdate mc

/-- `mc.AfterFunc(duration, fn)`: the new timer sits at address
`mc.timers.length`, which is the handle returned. -/
def AfterFunc (mc : MockClock) (duration : Int) (fn : Nat) : MockClock :=
  { mc with
    timers := mc.timers ++ [⟨mc.timersCounter, mc.baseTime + duration, some fn, true⟩],
    timersCounter := mc.timersCounter + 1,
    activeTimersQueue := PriorityQueue.Push mc.activeTimersQueue mc.timers.length }

/-- `mc.After(d)`: the timer gets no `ID` (it keeps the zero value) and no
handle. -/
def After (mc : MockClock) (d : Int) : MockClock :=
  { mc with
    timers := mc.timers ++ [⟨0, mc.baseTime + d, none, false⟩],
    activeTimersQueue := PriorityQueue.Push mc.activeTimersQueue mc.timers.length }

/-- Says that `timer` is a handle `AfterFunc` has returned. -/
def isHandle (mc : MockClock) (timer : Nat) : Bool :=
  match mc.timers.get? timer with
  | some t => t.handle
  | none => false

/-- `timer.Stop()`, that is `timer.stopFn()`. Client code only holds handles
returned by `AfterFunc`; a call that names anything else stands for no Go
program and does nothing. -/
def Stop (mc : MockClock) (timer : Nat) : MockClock :=
  if mc.isHandle timer then
    { mc with updatedTimerUpdates :=
        mapSet mc.updatedTimerUpdates timer ⟨.StopMockTimerUpdateType, 0⟩ }
  else mc

/-- `timer.Reset(d)`, that is `timer.resetFn(d)`. -/
def Reset (mc : MockClock) (timer : Nat) (d : Int) : MockClock :=
  if mc.isHandle timer then
    { mc with updatedTimerUpdates :=
        mapSet mc.updatedTimerUpdates timer ⟨.ResetMockTimerUpdateType, mc.baseTime + d⟩ }
  else mc

/-- One client call. -/
def exec (mc : MockClock) (c : Call) : MockClock :=
  match c with
  | .AfterFunc duration fn => mc.AfterFunc duration fn
  | .After d => mc.After d
  | .Stop timer => mc.Stop timer
  | .Reset timer d => mc.Reset timer d

/-- `nextTimer.Func()`: the call is recorded, then the closure runs. The
closure installed by `After` sends `mc.baseTime` on its channel, which changes
nothing in the clock; the send is taken to find a receiver waiting in another
goroutine (with none the Go call blocks and `MoveTo` does not return, so the
embedding reaches states the code does not). -/
def callFunc (env : Client) (mc : MockClock) (timer : Nat) : MockClock :=
  let mc1 := { mc with trace := mc.trace ++ [⟨timer, (deref mc.timers timer).Date, mc.baseTime⟩] }
  match (deref mc.timers timer).Func with
  | some k => (env k mc1.trace).foldl exec mc1
  | none => mc1

/-- The statement `nextTimer := heap.Pop(&mc.activeTimersQueue)`: the clock
after it. -/
def heapPop (mc : MockClock) : MockClock :=
  { mc with activeTimersQueue := (heap.Pop mc.timers mc.activeTimersQueue).2 }

/-- The statements from `mc.baseTime = nextTimer.Date` to
`mc.processUpdatedTimers()` in the loop of `MoveTo`: the clock moves to the
date of the timer, the timer gets a stop entry in the map, its `Func` is called
and the map is applied, in the order `pick`. -/
def fire (env : Client) (pick : List Nat) (mc : MockClock) (nextTimer : Nat) : MockClock :=
  processUpdatedTimers pick
    (callFunc env
      { mc with
        baseTime := (deref mc.timers nextTimer).Date,
        updatedTimerUpdates :=
          mapSet mc.updatedTimerUpdates nextTimer ⟨.StopMockTimerUpdateType, 0⟩ }
      nextTimer)

/-- The `for` loop of `MoveTo`, run for at most `fuel` turns. `sched i` is the
order in which the map is ranged over in turn `i`. The result is the clock
when the loop ended or the fuel ran out, with `true` in the first case. -/
def MoveToLoop (env : Client) : Nat → (Nat → List Nat) → Int → MockClock → Bool × MockClock
  | 0, _, _, mc => (false, mc)
  | fuel + 1, sched, targetTime, mc =>
    if PriorityQueue.Len mc.activeTimersQueue = 0 then (true, mc)
    else if (deref mc.timers (heap.Pop mc.timers mc.activeTimersQueue).1).Date > targetTime then
      (true, mc.heapPop.heapPush (heap.Pop mc.timers mc.activeTimersQueue).1)
    else
      MoveToLoop env fuel (fun i => sched (i + 1)) targetTime
        (fire env (sched 0) mc.heapPop (heap.Pop mc.timers mc.activeTimersQueue).1)

/-- `mc.MoveTo(targetTime)`: the loop, then `mc.baseTime = targetTime`. The
result is `(true, mcR)` when the call returns within `fuel` turns of the loop
and `(false, mcR)`, with `mcR` the clock reached, when it does not. -/
def MoveTo (env : Client) (fuel : Nat) (sched : Nat → List Nat) (mc : MockClock)
    (targetTime : Int) : Bool × MockClock :=
  match MoveToLoop env fuel sched targetTime mc with
  | (true, mcR) => (true, { mcR with baseTime := targetTime })
  | (false, mcR) => (false, mcR)

/-- `mc.MoveForward(d)`. -/
def MoveForward (env : Client) (fuel : Nat) (sched : Nat → List Nat) (mc : MockClock)
    (d : Int) : Bool × MockClock :=
  MoveTo env fuel sched mc (mc.Now + d)

end MockClock

/-! ## Test drivers -/

/-- One statement of a test: a client call made outside any callback, or an
advance of the clock. -/
inductive Step where
  | call (c : Call)
  | MoveTo (targetTime : Int)
  | MoveForward (d : Int)
  deriving DecidableEq, Repr

/-- The instant a statement aims at when the clock shows `now`: the target of
an advance, and `now` itself for a call, which leaves the time alone. -/
def Step.target (now : Int) : Step → Int
  | .call _ => now
  | .MoveTo targetTime => targetTime
  | .MoveForward d => now + d

/-- One statement on the clock. -/
def step (env : Client) (fuel : Nat) (sched : Nat → List Nat) (mc : MockClock) :
    Step → Bool × MockClock
  | .call c => (true, mc.exec c)
  | .MoveTo targetTime => mc.MoveTo env fuel sched targetTime
  | .MoveForward d => mc.MoveForward env fuel sched d

/-- A test: the statements in order, each advance with `fuel` turns; `sched n`
gives the map orders of statement `n`. It stops at the first advance that does
not return. -/
def run (env : Client) (fuel : Nat) : (Nat → Nat → List Nat) → List Step → MockClock →
    Bool × MockClock
  | _, [], mc => (true, mc)
  | sched, s :: rest, mc =>
    match step env fuel (sched 0) mc s with
    | (true, mcR) => run env fuel (fun n => sched (n + 1)) rest mcR
    | (false, mcR) => (false, mcR)

/-- How many times the `Func` of `timer` was called. -/
def MockClock.calls (mc : MockClock) (timer : Nat) : Nat :=
  (mc.trace.filter (fun e => e.timer == timer)).length

/-- The timers whose `Func` was called, in order of the calls. -/
def MockClock.fired (mc : MockClock) : List Nat := mc.trace.map Fired.timer

/-- The targets of the advances of a test that starts at the instant `now`
and whose advances all return. -/
def Step.targets : Int → List Step → List Int
  | _, [] => []
  | now, .call _ :: rest => Step.targets now rest
  | _, .MoveTo targetTime :: rest => targetTime :: Step.targets targetTime rest
  | now, .MoveForward d :: rest => (now + d) :: Step.targets (now + d) rest

/-- Says that a statement is an advance of the clock. -/
def Step.isAdvance : Step → Bool
  | .call _ => false
  | .MoveTo _ => true
  | .MoveForward _ => true

/-- Says that the timer at address `p` exists, has the date `D` and has no
pending reset in the map of updates. -/
def Unreset (p : Nat) (D : Int) (mc : MockClock) : Prop :=
  p < mc.timers.length ∧ (deref mc.timers p).Date = D ∧
    ∀ u ∈ mc.updatedTimerUpdates, u.1 = p → u.2.Kind = .StopMockTimerUpdateType

/-- The instant the clock shows after the statements of a test, all advances
returning, when it showed `now` before them. -/
def Step.endTime : Int → List Step → Int
  | now, [] => now
  | now, s :: rest => Step.endTime (Step.target now s) rest

/-- Says that no advance of the test aims before the instant the clock shows
when it is made, the clock showing `now` at first. -/
def Step.forward : Int → List Step → Bool
  | _, [] => true
  | now, s :: rest => decide (now ≤ Step.target now s) && Step.forward (Step.target now s) rest

/-- `mt.Stop()`: its result, always `true`, and the clock after
`mt.stopFn()`. -/
def MockTimer.Stop (mc : MockClock) (timer : Nat) : Bool × MockClock :=
  (true, mc.Stop timer)

/-- `mt.Reset(d)`: its result, always `true`, and the clock after
`mt.resetFn(d)`. -/
def MockTimer.Reset (mc : MockClock) (timer : Nat) (d : Int) : Bool × MockClock :=
  (true, mc.Reset timer d)

/-- Says that the clock is well formed: the queue holds no timer twice, the
queue and the map of updates name allocated timers only, and the map holds
each key once, as a Go map does. -/
def Wf (mc : MockClock) : Prop :=
  mc.activeTimersQueue.Nodup ∧ (∀ p ∈ mc.activeTimersQueue, p < mc.timers.length) ∧
  (∀ u ∈ mc.updatedTimerUpdates, u.1 < mc.timers.length) ∧
  (mc.updatedTimerUpdates.map Prod.fst).Nodup

/-! ## Clients of the tests -/

/-- Callbacks that call nothing on the clock (they set a flag or count). -/
def noCalls : Client := fun _ _ => []

/-- Closure `k` calls `timer.Stop()`; the other closures call nothing. -/
def stopper (k timer : Nat) : Client :=
  fun fn _ => if fn = k then [.Stop timer] else []

/-- Closure `k` calls `timer.Reset(d)`; the other closures call nothing. -/
def resetter (k timer : Nat) (d : Int) : Client :=
  fun fn _ => if fn = k then [.Reset timer d] else []

/-- The map orders of a test in which every `range` visits the entries in
stored order. -/
def storedOrder : Nat → Nat → List Nat := fun _ _ => []

/-- The calls of `Wrapper.count` of `mock_clock_test.go` once `w.Count` has
been incremented to `Count`, for a wrapper whose timer is `timer` and whose
period is `d` (one minute in the tests). -/
def Wrapper.count (StopAfter FinishAfter : Nat) (d : Int) (timer Count : Nat) : List Call :=
  if StopAfter ≠ 0 ∧ StopAfter ≤ Count then [.Stop timer]
  else if FinishAfter = 0 ∨ FinishAfter > Count then [.Reset timer d]
  else []

/-- The client of the `Wrapper` tests: closure `0` is `w.count` of a wrapper
started first on the clock (its timer is at address `0`); `w.Count` is the
number of calls of that closure so far. -/
def Wrapper.client (StopAfter FinishAfter : Nat) (d : Int) : Client :=
  fun fn tr =>
    if fn = 0 then
      Wrapper.count StopAfter FinishAfter d 0 (tr.filter (fun e => e.timer == 0)).length
    else []

/-- Says that `w.count`, called with `w.Count` incremented to `n`, resets the
timer; for `n = 0`, before any call, this holds. -/
def Wrapper.rearms (StopAfter FinishAfter n : Nat) : Bool :=
  !(decide (StopAfter ≠ 0 ∧ StopAfter ≤ n)) && decide (FinishAfter = 0 ∨ FinishAfter > n)

/-- The clock of a `Wrapper` test that started at `T0`, after `n` calls of
`w.count`, showing the instant `c`: the timer is queued for `T0 + (n+1)*d` if
the last call reset it, and is out of the queue with its last date if not. -/
def Wrapper.clock (T0 d : Int) (StopAfter FinishAfter n : Nat) (c : Int) : MockClock :=
  { baseTime := c,
    timersCounter := 1,
    activeTimersQueue := if Wrapper.rearms StopAfter FinishAfter n then [0] else [],
    inactiveTimers := [],
    updatedTimerUpdates :=
      if n = 0 then []
      else if Wrapper.rearms StopAfter FinishAfter n then
        [(0, ⟨.ResetMockTimerUpdateType, T0 + ((n : Int) + 1) * d⟩)]
      else [(0, ⟨.StopMockTimerUpdateType, 0⟩)],
    timers :=
      [⟨0, if Wrapper.rearms StopAfter FinishAfter n then T0 + ((n : Int) + 1) * d
           else T0 + (n : Int) * d, some 0, true⟩],
    trace := (List.range n).map
      (fun (i : Nat) => ⟨0, T0 + ((i : Int) + 1) * d, T0 + ((i : Int) + 1) * d⟩) }

/-- The number of whole periods `d` from `T0` to `c`. -/
def periods (T0 d c : Int) : Nat := ((c - T0) / d).toNat

/-! ## Tests run on a fresh clock at instant `0` -/

/-- `B := AfterFunc(4, f0)`, then `A := AfterFunc(2, f1)`, then `MoveTo(2)`. -/
def laterDueFirstTest : Bool × MockClock :=
  run noCalls 5 storedOrder [.call (.AfterFunc 4 0), .call (.AfterFunc 2 1), .MoveTo 2] (Mock 0)

/-- Five timers made with `AfterFunc`, at `1`, `7`, `8`, `5` and `5` in this
order, then `MoveTo(5)`. -/
def equalDatesTest : Bool × MockClock :=
  run noCalls 9 storedOrder
    [.call (.AfterFunc 1 0), .call (.AfterFunc 7 1), .call (.AfterFunc 8 2),
     .call (.AfterFunc 5 3), .call (.AfterFunc 5 4), .MoveTo 5] (Mock 0)

/-- `X := AfterFunc(2, f0)`, then `Y := AfterFunc(1, f1)` where `f1` calls
`X.Stop()`, then `MoveTo(2)`. -/
def stopFromEarlierTest : Bool × MockClock :=
  run (stopper 1 0) 5 storedOrder [.call (.AfterFunc 2 0), .call (.AfterFunc 1 1), .MoveTo 2]
    (Mock 0)

/-- `T1 := AfterFunc(3, f0)`, then `T2 := AfterFunc(1, f1)` where `f1` calls
`T1.Reset(3)`, then `MoveForward(3)`. -/
def resetFromEarlierTest : Bool × MockClock :=
  run (resetter 1 0 3) 5 storedOrder
    [.call (.AfterFunc 3 0), .call (.AfterFunc 1 1), .MoveForward 3] (Mock 0)

/-- `T := AfterFunc(1, f0)`, then `T.Stop()` from the test, then
`MoveForward(1)`. -/
def stopFromTestTest : Bool × MockClock :=
  run noCalls 5 storedOrder [.call (.AfterFunc 1 0), .call (.Stop 0), .MoveForward 1] (Mock 0)

/-- `T := AfterFunc(1, f0)`, `MoveForward(1)` (the timer fires), `T.Reset(3)`
from the test at instant `1`, then `MoveForward(3)` and `MoveForward(100)`. -/
def resetFromTestTest : Bool × MockClock :=
  run noCalls 5 storedOrder
    [.call (.AfterFunc 1 0), .MoveForward 1, .call (.Reset 0 3), .MoveForward 3,
     .MoveForward 100] (Mock 0)

/-- `AfterFunc(-5, f0)` on a fresh clock at `0`, then `MoveTo(0)`. -/
def negativeDurationTest : Bool × MockClock :=
  run noCalls 5 storedOrder [.call (.AfterFunc (-5) 0), .MoveTo 0] (Mock 0)

/-- `AfterFunc(1, f0)`, then `After(1)` and `After(2)`, on a fresh clock at
`0`. -/
def afterIDsTest : Bool × MockClock :=
  run noCalls 5 storedOrder [.call (.AfterFunc 1 0), .call (.After 1), .call (.After 2)] (Mock 0)

/-- `AfterFunc(1, f0)` on a fresh clock at `0`, then `MoveTo(1)`: a one-shot
timer that fires. -/
def oneShotTest : Bool × MockClock :=
  run noCalls 5 storedOrder [.call (.AfterFunc 1 0), .MoveTo 1] (Mock 0)

/-- Closure `0` calls `Stop()` on timer `1` and closure `2` calls `Reset(1)` on
timer `1`. -/
def stopThenReset : Client :=
  fun fn _ => if fn = 0 then [.Stop 1] else if fn = 2 then [.Reset 1 1] else []

/-- `Y := AfterFunc(1, f0)`, `X := AfterFunc(5, f1)`, `Z := AfterFunc(2, f2)`
on a fresh clock at `0`, where `f0` calls `X.Stop()` and `f2` calls
`X.Reset(1)`, then `MoveTo(2)`. -/
def stopThenResetTest : Bool × MockClock :=
  run stopThenReset 5 storedOrder
    [.call (.AfterFunc 1 0), .call (.AfterFunc 5 1), .call (.AfterFunc 2 2), .MoveTo 2] (Mock 0)

/-- The clock after `AfterFunc(4, f0)` and `AfterFunc(2, f1)` on a fresh clock
at `0`. -/
def laterDueFirstClock : MockClock := ((Mock 0).AfterFunc 4 0).AfterFunc 2 1

/-- The duration a client call passes, `0` for `Stop`. -/
def Call.duration : Call → Int
  | .AfterFunc duration _ => duration
  | .After d => d
  | .Stop _ => 0
  | .Reset _ d => d

/-- Says that no timer in the active queue has a date before `N`, and that
every pending reset names an allocated timer and has no date before `N`. -/
def QueuedFrom (N : Int) (mc : MockClock) : Prop :=
  (∀ p ∈ mc.activeTimersQueue, N ≤ (deref mc.timers p).Date) ∧
  (∀ u ∈ mc.updatedTimerUpdates, u.2.Kind = .ResetMockTimerUpdateType →
    u.1 < mc.timers.length ∧ N ≤ u.2.Date)

/-- The clock of `TestClockShouldTriggerAfterFuncOfMultipleTimers` (in
minutes) after its third advance: the time is `3`, the timer at `2` has fired
and the timer at `4` is queued. -/
def repoClock : MockClock :=
  (run noCalls 9 storedOrder
    [.call (.AfterFunc 2 0), .call (.AfterFunc 4 1), .MoveForward 1, .MoveForward 1,
     .MoveForward 1] (Mock 0)).2

/-- Says that two clocks hold the same timers with the same dates, the same
set of active timers and the same set of inactive timers. -/
def SameSets (a b : MockClock) : Prop :=
  a.timers = b.timers ∧ (∀ p, p ∈ a.activeTimersQueue ↔ p ∈ b.activeTimersQueue) ∧
  (∀ p, p ∈ a.inactiveTimers ↔ p ∈ b.inactiveTimers)

/-- The number of calls of the callback of `timer` after the statements
`steps` of a test on a fresh clock at `0`, the maps ranged in stored order. -/
def callsAfter (env : Client) (steps : List Step) (timer : Nat) : Nat :=
  (run env 9 storedOrder steps (Mock 0)).2.calls timer

/-- The smaller of `m` and the limit `k`, where the limit `0` stands for no
limit (as `StopAfter` and `FinishAfter` do). -/
def capAt (k m : Nat) : Nat := if k = 0 then m else min m k

end smartclock

/-! # Theorems -/

namespace smartclock

open MockClock

/-! ## `MoveTo` and the current time -/

theorem MoveTo_fst (env : Client) (fuel : Nat) (sched : Nat → List Nat) (mc : MockClock)
    (t : Int) : (mc.MoveTo env fuel sched t).1 = (MoveToLoop env fuel sched t mc).1 := by
  unfold MockClock.MoveTo
  generalize MoveToLoop env fuel sched t mc = res
  rcases res with ⟨b, m⟩
  cases b <;> rfl

theorem MoveTo_now (env : Client) (fuel : Nat) (sched : Nat → List Nat) (mc : MockClock)
    (t : Int) (h : (mc.MoveTo env fuel sched t).1 = true) :
    (mc.MoveTo env fuel sched t).2.Now = t := by
  unfold MockClock.MoveTo at h ⊢
  generalize MoveToLoop env fuel sched t mc = res at h ⊢
  rcases res with ⟨b, m⟩
  cases b
  · simp at h
  · rfl

/-- C4. When `MoveTo(t)` returns, `Now()` is `t`, whatever the clock and the
callbacks were and whether or not a timer fired; and when `MoveForward(d)`
returns, `Now()` is its value before the call plus `d`. -/
theorem MoveTo_returns_sets_now (env : Client) (fuel : Nat) (sched : Nat → List Nat)
    (mc : MockClock) (t d : Int) :
    ((mc.MoveTo env fuel sched t).1 = true → (mc.MoveTo env fuel sched t).2.Now = t) ∧
    ((mc.MoveForward env fuel sched d).1 = true →
      (mc.MoveForward env fuel sched d).2.Now = mc.Now + d) :=
  ⟨MoveTo_now env fuel sched mc t, MoveTo_now env fuel sched mc (mc.Now + d)⟩

/-- C4, at the clock of `TestClockShouldTriggerAfterFunc`: a timer at `+2`,
advanced to `2` (the timer fires) and forward by `1` from `0` (it does not). -/
theorem MoveTo_returns_sets_now_witness :
    ((((Mock 0).AfterFunc 2 0).MoveTo noCalls 3 (storedOrder 0) 2).1 = true ∧
      (((Mock 0).AfterFunc 2 0).MoveTo noCalls 3 (storedOrder 0) 2).2.Now = 2) ∧
    ((((Mock 0).AfterFunc 2 0).MoveForward noCalls 3 (storedOrder 0) 1).1 = true ∧
      (((Mock 0).AfterFunc 2 0).MoveForward noCalls 3 (storedOrder 0) 1).2.Now =
        ((Mock 0).AfterFunc 2 0).Now + 1) :=
  ⟨⟨by decide, (MoveTo_returns_sets_now noCalls 3 (storedOrder 0) ((Mock 0).AfterFunc 2 0)
      2 1).1 (by decide)⟩,
   ⟨by decide, (MoveTo_returns_sets_now noCalls 3 (storedOrder 0) ((Mock 0).AfterFunc 2 0)
      2 1).2 (by decide)⟩⟩

/-! ## What the parts of `MoveTo` leave unchanged -/

theorem exec_trace (mc : MockClock) (c : Call) : (mc.exec c).trace = mc.trace := by
  cases c <;> simp only [exec, MockClock.AfterFunc, MockClock.After, MockClock.Stop,
    MockClock.Reset] <;> first | rfl | (split <;> rfl)

theorem exec_baseTime (mc : MockClock) (c : Call) : (mc.exec c).baseTime = mc.baseTime := by
  cases c <;> simp only [exec, MockClock.AfterFunc, MockClock.After, MockClock.Stop,
    MockClock.Reset] <;> first | rfl | (split <;> rfl)

theorem foldl_exec_trace (cs : List Call) (mc : MockClock) :
    (cs.foldl exec mc).trace = mc.trace := by
  induction cs generalizing mc with
  | nil => rfl
  | cons c cs ih => simp [List.foldl_cons, ih, exec_trace]

theorem foldl_exec_baseTime (cs : List Call) (mc : MockClock) :
    (cs.foldl exec mc).baseTime = mc.baseTime := by
  induction cs generalizing mc with
  | nil => rfl
  | cons c cs ih => simp [List.foldl_cons, ih, exec_baseTime]

theorem applyUpdate_trace (mc : MockClock) (u : Nat × MockTimerUpdate) :
    (mc.applyUpdate u).trace = mc.trace := by
  unfold applyUpdate
  split <;> split <;> rfl

theorem applyUpdate_log (mc : MockClock) (u : Nat × MockTimerUpdate) :
    (mc.applyUpdate u).updatedTimerUpdates = mc.updatedTimerUpdates := by
  unfold applyUpdate
  split <;> split <;> rfl

theorem applyUpdate_baseTime (mc : MockClock) (u : Nat × MockTimerUpdate) :
    (mc.applyUpdate u).baseTime = mc.baseTime := by
  unfold applyUpdate
  split <;> split <;> rfl

theorem foldl_applyUpdate_trace (us : List (Nat × MockTimerUpdate)) (mc : MockClock) :
    (us.foldl applyUpdate mc).trace = mc.trace := by
  induction us generalizing mc with
  | nil => rfl
  | cons u us ih => simp [List.foldl_cons, ih, applyUpdate_trace]

theorem processUpdatedTimers_trace (pick : List Nat) (mc : MockClock) :
    (mc.processUpdatedTimers pick).trace = mc.trace :=
  foldl_applyUpdate_trace _ mc

theorem callFunc_trace (env : Client) (mc : MockClock) (timer : Nat) :
    (mc.callFunc env timer).trace =
      mc.trace ++ [⟨timer, (deref mc.timers timer).Date, mc.baseTime⟩] := by
  unfold callFunc
  split
  · simp [foldl_exec_trace]
  · rfl

theorem fire_trace (env : Client) (pick : List Nat) (mc : MockClock) (timer : Nat) :
    (mc.fire env pick timer).trace =
      mc.trace ++ [⟨timer, (deref mc.timers timer).Date, (deref mc.timers timer).Date⟩] := by
  unfold fire
  rw [processUpdatedTimers_trace, callFunc_trace]

theorem MoveTo_snd_trace (env : Client) (fuel : Nat) (sched : Nat → List Nat) (mc : MockClock)
    (t : Int) : (mc.MoveTo env fuel sched t).2.trace = (MoveToLoop env fuel sched t mc).2.trace := by
  unfold MockClock.MoveTo
  generalize MoveToLoop env fuel sched t mc = res
  rcases res with ⟨b, m⟩
  cases b <;> rfl

/-- Every call `MoveTo`'s loop makes is the call of a timer whose `Date` is not
after the target. -/
theorem MoveToLoop_fires_due (env : Client) (fuel : Nat) (sched : Nat → List Nat) (t : Int)
    (mc : MockClock) :
    ∃ new, (MoveToLoop env fuel sched t mc).2.trace = mc.trace ++ new ∧
      ∀ e ∈ new, e.date ≤ t := by
  induction fuel generalizing sched mc with
  | zero => exact ⟨[], by simp [MoveToLoop]⟩
  | succ fuel ih =>
    simp only [MoveToLoop]
    split_ifs with h1 h2
    · exact ⟨[], by simp⟩
    · exact ⟨[], by simp [heapPush, heapPop]⟩
    · obtain ⟨new, hnew, hdue⟩ := ih (fun i => sched (i + 1))
        (fire env (sched 0) mc.heapPop (heap.Pop mc.timers mc.activeTimersQueue).1)
      refine ⟨⟨(heap.Pop mc.timers mc.activeTimersQueue).1,
        (deref mc.timers (heap.Pop mc.timers mc.activeTimersQueue).1).Date,
        (deref mc.timers (heap.Pop mc.timers mc.activeTimersQueue).1).Date⟩ :: new, ?_, ?_⟩
      · rw [hnew, fire_trace, List.append_assoc]
        rfl
      · intro e he
        rcases List.mem_cons.1 he with rfl | he
        · simpa [heapPop] using h2
        · exact hdue e he

/-! ## A timer that is never reset keeps its date -/

theorem deref_append_left (timers l : List MockTimer) (p : Nat) (h : p < timers.length) :
    deref (timers ++ l) p = deref timers p := by
  unfold deref
  exact List.getD_append _ _ _ _ h

theorem deref_modify_ne (timers : List MockTimer) (f : MockTimer → MockTimer) (p q : Nat)
    (h : q ≠ p) : deref (timers.modify f q) p = deref timers p := by
  unfold deref
  simp [List.getElem?_modify_ne _ _ h]

theorem mem_mapSet (m : List (Nat × MockTimerUpdate)) (k : Nat) (v : MockTimerUpdate)
    (u : Nat × MockTimerUpdate) (h : u ∈ mapSet m k v) : u = (k, v) ∨ u ∈ m := by
  induction m with
  | nil => simpa [mapSet] using h
  | cons x m ih =>
    obtain ⟨k1, v1⟩ := x
    simp only [mapSet] at h
    split_ifs at h with hk
    · rcases List.mem_cons.1 h with h | h
      · exact Or.inl h
      · exact Or.inr (List.mem_cons_of_mem _ h)
    · rcases List.mem_cons.1 h with h | h
      · exact Or.inr (h ▸ List.mem_cons_self _ _)
      · rcases ih h with h | h
        · exact Or.inl h
        · exact Or.inr (List.mem_cons_of_mem _ h)

theorem mem_rangeOrder {α : Type} (pick : List Nat) (m : List α) (x : α)
    (h : x ∈ rangeOrder pick m) : x ∈ m := by
  induction pick generalizing m with
  | nil => simpa [rangeOrder] using h
  | cons i pick ih =>
    cases m with
    | nil => simp [rangeOrder] at h
    | cons y m =>
      simp only [rangeOrder] at h
      rcases List.mem_cons.1 h with h | h
      · rw [h, List.getD_eq_getElem _ _ (Nat.mod_lt _ (by simp))]
        exact List.getElem_mem _
      · exact List.mem_of_mem_eraseIdx (ih _ h)

theorem Unreset.of_eq {p : Nat} {D : Int} {mc mc2 : MockClock} (h : Unreset p D mc)
    (ht : mc2.timers = mc.timers) (hl : mc2.updatedTimerUpdates = mc.updatedTimerUpdates) :
    Unreset p D mc2 := by
  unfold Unreset at h ⊢
  rw [ht, hl]
  exact h

theorem exec_unreset (p : Nat) (D : Int) (mc : MockClock) (c : Call)
    (hc : ∀ d, c ≠ .Reset p d) (h : Unreset p D mc) : Unreset p D (mc.exec c) := by
  obtain ⟨h1, h2, h3⟩ := h
  cases c with
  | AfterFunc duration fn =>
    refine ⟨?_, ?_, h3⟩
    · simp [exec, MockClock.AfterFunc]; omega
    · simp only [exec, MockClock.AfterFunc]
      rw [deref_append_left _ _ _ h1]
      exact h2
  | After d =>
    refine ⟨?_, ?_, h3⟩
    · simp [exec, MockClock.After]; omega
    · simp only [exec, MockClock.After]
      rw [deref_append_left _ _ _ h1]
      exact h2
  | Stop timer =>
    simp only [exec, MockClock.Stop]
    split_ifs
    · refine ⟨h1, h2, ?_⟩
      intro u hu hp
      rcases mem_mapSet _ _ _ _ hu with rfl | hu
      · rfl
      · exact h3 u hu hp
    · exact ⟨h1, h2, h3⟩
  | Reset timer d =>
    simp only [exec, MockClock.Reset]
    split_ifs
    · refine ⟨h1, h2, ?_⟩
      intro u hu hp
      rcases mem_mapSet _ _ _ _ hu with rfl | hu
      · exact absurd (by rw [← hp]) (hc d)
      · exact h3 u hu hp
    · exact ⟨h1, h2, h3⟩

theorem foldl_exec_unreset (p : Nat) (D : Int) (cs : List Call) (mc : MockClock)
    (hc : ∀ d, Call.Reset p d ∉ cs) (h : Unreset p D mc) : Unreset p D (cs.foldl exec mc) := by
  induction cs generalizing mc with
  | nil => exact h
  | cons c cs ih =>
    rw [List.foldl_cons]
    refine ih _ (fun d hd => hc d (List.mem_cons_of_mem _ hd)) (exec_unreset p D mc c ?_ h)
    intro d hd
    exact hc d (hd ▸ List.mem_cons_self _ _)

theorem applyUpdate_unreset (p : Nat) (D : Int) (mc : MockClock) (u : Nat × MockTimerUpdate)
    (hu : u.1 = p → u.2.Kind = .StopMockTimerUpdateType) (h : Unreset p D mc) :
    Unreset p D (mc.applyUpdate u) := by
  obtain ⟨h1, h2, h3⟩ := h
  unfold applyUpdate
  split
  · rename_i hk
    have hne : u.1 ≠ p := fun hp => by simp [hu hp] at hk
    split_ifs
    · refine ⟨?_, ?_, h3⟩
      · simpa [heapInit, setDate] using h1
      · simp only [heapInit, setDate]
        rw [deref_modify_ne _ _ _ _ hne]
        exact h2
    · refine ⟨?_, ?_, h3⟩
      · simpa [heapPush, setDate] using h1
      · simp only [heapPush, setDate]
        rw [deref_modify_ne _ _ _ _ hne]
        exact h2
  · split_ifs
    · exact ⟨h1, h2, h3⟩
    · exact ⟨h1, h2, h3⟩

theorem foldl_applyUpdate_unreset (p : Nat) (D : Int) (us : List (Nat × MockTimerUpdate))
    (mc : MockClock) (hu : ∀ u ∈ us, u.1 = p → u.2.Kind = .StopMockTimerUpdateType)
    (h : Unreset p D mc) : Unreset p D (us.foldl applyUpdate mc) := by
  induction us generalizing mc with
  | nil => exact h
  | cons u us ih =>
    rw [List.foldl_cons]
    exact ih _ (fun v hv => hu v (List.mem_cons_of_mem _ hv))
      (applyUpdate_unreset p D mc u (hu u (List.mem_cons_self _ _)) h)

theorem processUpdatedTimers_unreset (p : Nat) (D : Int) (pick : List Nat) (mc : MockClock)
    (h : Unreset p D mc) : Unreset p D (mc.processUpdatedTimers pick) :=
  foldl_applyUpdate_unreset p D _ mc (fun u hu => h.2.2 u (mem_rangeOrder _ _ _ hu)) h

theorem callFunc_unreset (env : Client) (p : Nat) (D : Int) (mc : MockClock) (timer : Nat)
    (henv : ∀ k tr d, Call.Reset p d ∉ env k tr) (h : Unreset p D mc) :
    Unreset p D (mc.callFunc env timer) := by
  unfold callFunc
  split
  · exact foldl_exec_unreset p D _ _ (henv _ _) (h.of_eq rfl rfl)
  · exact h.of_eq rfl rfl

theorem fire_unreset (env : Client) (p : Nat) (D : Int) (pick : List Nat) (mc : MockClock)
    (timer : Nat) (henv : ∀ k tr d, Call.Reset p d ∉ env k tr) (h : Unreset p D mc) :
    Unreset p D (mc.fire env pick timer) := by
  unfold fire
  refine processUpdatedTimers_unreset p D _ _ (callFunc_unreset env p D _ _ henv ?_)
  refine ⟨h.1, h.2.1, ?_⟩
  intro u hu hp
  rcases mem_mapSet _ _ _ _ hu with rfl | hu
  · rfl
  · exact h.2.2 u hu hp

/-- A timer that nobody resets is not called by `MoveTo`'s loop while the
target is before its date, and it stays as it is. -/
theorem MoveToLoop_unreset (env : Client) (p : Nat) (D : Int)
    (henv : ∀ k tr d, Call.Reset p d ∉ env k tr) (fuel : Nat) (sched : Nat → List Nat)
    (t : Int) (ht : t < D) (mc : MockClock) (h : Unreset p D mc) :
    Unreset p D (MoveToLoop env fuel sched t mc).2 ∧
    ∃ new, (MoveToLoop env fuel sched t mc).2.trace = mc.trace ++ new ∧
      ∀ e ∈ new, e.timer ≠ p := by
  induction fuel generalizing sched mc with
  | zero => exact ⟨h, [], by simp [MoveToLoop]⟩
  | succ fuel ih =>
    simp only [MoveToLoop]
    split_ifs with h1 h2
    · exact ⟨h, [], by simp⟩
    · exact ⟨h.of_eq rfl rfl, [], by simp [heapPush, heapPop]⟩
    · obtain ⟨hinv, new, hnew, hdue⟩ := ih (fun i => sched (i + 1))
        (fire env (sched 0) mc.heapPop (heap.Pop mc.timers mc.activeTimersQueue).1)
        (fire_unreset env p D _ _ _ henv (h.of_eq rfl rfl))
      refine ⟨hinv, ⟨(heap.Pop mc.timers mc.activeTimersQueue).1,
        (deref mc.timers (heap.Pop mc.timers mc.activeTimersQueue).1).Date,
        (deref mc.timers (heap.Pop mc.timers mc.activeTimersQueue).1).Date⟩ :: new, ?_, ?_⟩
      · rw [hnew, fire_trace, List.append_assoc]
        rfl
      · intro e he
        rcases List.mem_cons.1 he with rfl | he
        · intro hp
          simp only at hp
          rw [hp, h.2.1] at h2
          omega
        · exact hdue e he

theorem MoveTo_snd (env : Client) (fuel : Nat) (sched : Nat → List Nat) (mc : MockClock)
    (t : Int) :
    (mc.MoveTo env fuel sched t).2 =
      if (MoveToLoop env fuel sched t mc).1 then
        { (MoveToLoop env fuel sched t mc).2 with baseTime := t }
      else (MoveToLoop env fuel sched t mc).2 := by
  unfold MockClock.MoveTo
  generalize MoveToLoop env fuel sched t mc = res
  rcases res with ⟨b, m⟩
  cases b <;> rfl

theorem MoveTo_unreset (env : Client) (p : Nat) (D : Int)
    (henv : ∀ k tr d, Call.Reset p d ∉ env k tr) (fuel : Nat) (sched : Nat → List Nat)
    (t : Int) (ht : t < D) (mc : MockClock) (h : Unreset p D mc) :
    Unreset p D (mc.MoveTo env fuel sched t).2 ∧
    ∃ new, (mc.MoveTo env fuel sched t).2.trace = mc.trace ++ new ∧
      ∀ e ∈ new, e.timer ≠ p := by
  obtain ⟨hinv, hnew⟩ := MoveToLoop_unreset env p D henv fuel sched t ht mc h
  rw [MoveTo_snd_trace]
  refine ⟨?_, hnew⟩
  rw [MoveTo_snd]
  split_ifs
  · exact hinv.of_eq rfl rfl
  · exact hinv

theorem run_cons (env : Client) (fuel : Nat) (sched : Nat → Nat → List Nat) (s : Step)
    (rest : List Step) (mc : MockClock) :
    run env fuel sched (s :: rest) mc =
      if (step env fuel (sched 0) mc s).1 then
        run env fuel (fun n => sched (n + 1)) rest (step env fuel (sched 0) mc s).2
      else (false, (step env fuel (sched 0) mc s).2) := by
  rw [run]
  generalize step env fuel (sched 0) mc s = res
  rcases res with ⟨b, m⟩
  cases b <;> rfl

/-- One statement that is not a reset of timer `p` and does not aim at or
beyond its date leaves the timer uncalled and as it is. -/
theorem step_unreset (env : Client) (p : Nat) (D : Int)
    (henv : ∀ k tr d, Call.Reset p d ∉ env k tr) (fuel : Nat) (sched : Nat → List Nat)
    (s : Step) (mc : MockClock) (hs : ∀ d, s ≠ .call (.Reset p d))
    (ht : s.isAdvance = true → Step.target mc.Now s < D) (h : Unreset p D mc) :
    Unreset p D (step env fuel sched mc s).2 ∧
    ∃ new, (step env fuel sched mc s).2.trace = mc.trace ++ new ∧ ∀ e ∈ new, e.timer ≠ p := by
  cases s with
  | call c =>
    refine ⟨exec_unreset p D mc c (fun d hd => hs d (by rw [hd])) h, [], ?_, by simp⟩
    simp [step, exec_trace]
  | MoveTo targetTime => exact MoveTo_unreset env p D henv fuel sched _ (ht rfl) mc h
  | MoveForward d => exact MoveTo_unreset env p D henv fuel sched _ (ht rfl) mc h

theorem step_now (env : Client) (fuel : Nat) (sched : Nat → List Nat) (s : Step)
    (mc : MockClock) (h : (step env fuel sched mc s).1 = true) :
    (step env fuel sched mc s).2.Now = Step.target mc.Now s := by
  cases s with
  | call c => exact exec_baseTime mc c
  | MoveTo targetTime => exact MoveTo_now env fuel sched mc _ h
  | MoveForward d => exact MoveTo_now env fuel sched mc _ h

theorem targets_cons (s : Step) (rest : List Step) (mc : MockClock) :
    Step.targets mc.Now (s :: rest) =
      (if s.isAdvance then [Step.target mc.Now s] else []) ++
        Step.targets (Step.target mc.Now s) rest := by
  cases s <;> simp [Step.targets, Step.isAdvance, Step.target]

theorem run_unreset (env : Client) (p : Nat) (D : Int)
    (henv : ∀ k tr d, Call.Reset p d ∉ env k tr) (fuel : Nat) (steps : List Step)
    (sched : Nat → Nat → List Nat) (mc : MockClock)
    (hs : ∀ d, Step.call (.Reset p d) ∉ steps)
    (ht : ∀ t ∈ Step.targets mc.Now steps, t < D) (h : Unreset p D mc) :
    Unreset p D (run env fuel sched steps mc).2 ∧
    ∃ new, (run env fuel sched steps mc).2.trace = mc.trace ++ new ∧
      ∀ e ∈ new, e.timer ≠ p := by
  induction steps generalizing sched mc with
  | nil => exact ⟨h, [], by simp [run]⟩
  | cons s rest ih =>
    rw [targets_cons] at ht
    obtain ⟨hinv, new, hnew, hne⟩ := step_unreset env p D henv fuel (sched 0) s mc
      (fun d hd => hs d (hd ▸ List.mem_cons_self _ _))
      (fun ha => ht _ (by simp [ha])) h
    rw [run_cons]
    split_ifs with hret
    · obtain ⟨hinv2, new2, hnew2, hne2⟩ := ih (fun n => sched (n + 1))
        (step env fuel (sched 0) mc s).2 (fun d hd => hs d (List.mem_cons_of_mem _ hd))
        (fun t htm => ht t (by
          rw [step_now env fuel (sched 0) s mc hret] at htm
          exact List.mem_append_right _ htm)) hinv
      refine ⟨hinv2, new ++ new2, ?_, ?_⟩
      · rw [hnew2, hnew, List.append_assoc]
      · intro e he
        rcases List.mem_append.1 he with he | he
        · exact hne e he
        · exact hne2 e he
    · exact ⟨hinv, new, hnew, hne⟩

theorem AfterFunc_unreset (mc : MockClock) (d : Int) (fn : Nat)
    (hwf : ∀ u ∈ mc.updatedTimerUpdates, u.1 < mc.timers.length) :
    Unreset mc.timers.length (mc.baseTime + d) (mc.AfterFunc d fn) := by
  refine ⟨by simp [MockClock.AfterFunc], by simp [MockClock.AfterFunc, deref], ?_⟩
  intro u hu hp
  have := hwf u hu
  omega

/-- C3. `MoveTo(t)` calls the `Func` of no timer whose `Date`, when the timer
is taken from the queue, is after `t`: every call it records has a date at or
before `t`, whether or not `MoveTo` returns. And a timer made by
`AfterFunc(d, fn)` that nobody resets (no callback, no statement of the test)
is not called by any sequence of calls and advances whose targets are all
before its date `Now() + d`. -/
theorem MoveTo_never_fires_after_target (env : Client) :
    (∀ (fuel : Nat) (sched : Nat → List Nat) (mc : MockClock) (t : Int),
      ∃ new, (mc.MoveTo env fuel sched t).2.trace = mc.trace ++ new ∧
        ∀ e ∈ new, e.date ≤ t) ∧
    (∀ (mc : MockClock) (d : Int) (fn : Nat) (fuel : Nat) (sched : Nat → Nat → List Nat)
      (steps : List Step),
      (∀ u ∈ mc.updatedTimerUpdates, u.1 < mc.timers.length) →
      (∀ k tr r, Call.Reset mc.timers.length r ∉ env k tr) →
      (∀ r, Step.call (.Reset mc.timers.length r) ∉ steps) →
      (∀ t ∈ Step.targets mc.Now steps, t < mc.Now + d) →
      ∃ new, (run env fuel sched steps (mc.AfterFunc d fn)).2.trace = mc.trace ++ new ∧
        ∀ e ∈ new, e.timer ≠ mc.timers.length) := by
  constructor
  · intro fuel sched mc t
    rw [MoveTo_snd_trace]
    exact MoveToLoop_fires_due env fuel sched t mc
  · intro mc d fn fuel sched steps hwf henv hs ht
    exact (run_unreset env mc.timers.length (mc.baseTime + d) henv fuel steps sched
      (mc.AfterFunc d fn) hs ht (AfterFunc_unreset mc d fn hwf)).2

/-- C3, at `TestDrivableTimer` (in seconds): a timer at `+1200` is not called
by the advances of `1140` and `59`. -/
theorem MoveTo_never_fires_after_target_witness :
    ∃ new, (run noCalls 5 storedOrder [.MoveForward 1140, .MoveForward 59]
        ((Mock 0).AfterFunc 1200 0)).2.trace = [] ++ new ∧
      ∀ e ∈ new, e.timer ≠ 0 :=
  (MoveTo_never_fires_after_target noCalls).2 (Mock 0) 1200 0 5 storedOrder
    [.MoveForward 1140, .MoveForward 59] (by simp [Mock]) (by simp [noCalls]) (by simp)
    (by decide)

/-! ## Timers made in an order other than that of their dates -/

/-- C1, failing input: `B := AfterFunc(4)` then `A := AfterFunc(2)` on a fresh
clock at `0`, then `MoveTo(2)`. The call returns with `Now() = 2`, the date of
`A` is `2`, and `A` has not been called: `heap.Pop` took `B`, the first element
of a queue that `AfterFunc` filled without sifting. -/
theorem AfterFunc_later_due_first_not_fired :
    laterDueFirstTest.1 = true ∧ laterDueFirstTest.2.Now = 2 ∧
    (deref laterDueFirstTest.2.timers 1).Date = 2 ∧ laterDueFirstTest.2.calls 1 = 0 := by
  decide

/-- C2, failing input: timers at `1`, `7`, `8`, `5`, `5` made in this order,
then `MoveTo(5)`. The two timers at `5` have the addresses and IDs `3` and `4`;
the one made later, `4`, is called before the one made earlier, `3`. -/
theorem AfterFunc_equal_dates_later_first :
    equalDatesTest.1 = true ∧ equalDatesTest.2.fired = [0, 4, 3] ∧
    (deref equalDatesTest.2.timers 3).Date = (deref equalDatesTest.2.timers 4).Date ∧
    (deref equalDatesTest.2.timers 3).ID < (deref equalDatesTest.2.timers 4).ID := by
  decide

/-- C7, failing input: `X := AfterFunc(2)` made first, `Y := AfterFunc(1)` whose
callback calls `X.Stop()`, then `MoveTo(2)`. `X` is called, and before `Y`. -/
theorem Stop_from_earlier_timer_too_late :
    stopFromEarlierTest.1 = true ∧ stopFromEarlierTest.2.fired = [0, 1] ∧
    stopFromEarlierTest.2.calls 0 = 1 := by
  decide

/-- C8, failing input: `T1 := AfterFunc(3)` made first, `T2 := AfterFunc(1)`
whose callback calls `T1.Reset(3)`, then one `MoveForward(3)`. `T1` is called
with `Now() = 3`, its first date, though the clock has not reached `1 + 3`. -/
theorem Reset_from_earlier_timer_too_late :
    resetFromEarlierTest.1 = true ∧ resetFromEarlierTest.2.Now = 3 ∧
    resetFromEarlierTest.2.trace = [⟨0, 3, 3⟩, ⟨1, 1, 1⟩] := by
  decide

/-! ## Handles used outside a callback -/

/-- C9, failing input: `T := AfterFunc(1)`, `T.Stop()` from the test before any
advance, then `MoveForward(1)`. The callback of `T` is called: the stop entry
is still in the map, not applied, when `T` is taken from the queue. -/
theorem Stop_from_test_still_fires :
    stopFromTestTest.1 = true ∧ stopFromTestTest.2.calls 0 = 1 ∧
    stopFromTestTest.2.trace = [⟨0, 1, 1⟩] := by
  decide

/-- C10, failing input: `T := AfterFunc(1)`, `MoveForward(1)` (the callback
runs), `T.Reset(3)` from the test with `Now() = 1`, then `MoveForward(3)` and
`MoveForward(100)`. The clock passes `1 + 3` and the callback is not called
again: the reset stays in the map and `T` is not in the queue. -/
theorem Reset_from_test_never_fires :
    resetFromTestTest.1 = true ∧ resetFromTestTest.2.Now = 104 ∧
    resetFromTestTest.2.calls 0 = 1 ∧ resetFromTestTest.2.activeTimersQueue = [] ∧
    resetFromTestTest.2.updatedTimerUpdates = [(0, ⟨.ResetMockTimerUpdateType, 4⟩)] := by
  decide

/-! ## Targets at or before the current time -/

/-- C5, as stated, fails: on a fresh clock at `0`, `MoveTo(-5)` returns with
`Now() = -5`; and on a fresh clock at `0` with a timer made by `AfterFunc(0)`,
`MoveTo(0)` calls the callback. -/
theorem MoveTo_backward_counterexample :
    ((-5 : Int) ≤ (Mock 0).Now ∧ ((Mock 0).MoveTo noCalls 1 (storedOrder 0) (-5)).1 = true ∧
      ((Mock 0).MoveTo noCalls 1 (storedOrder 0) (-5)).2.Now ≠ (Mock 0).Now) ∧
    ((0 : Int) ≤ ((Mock 0).AfterFunc 0 0).Now ∧
      (((Mock 0).AfterFunc 0 0).MoveTo noCalls 2 (storedOrder 0) 0).1 = true ∧
      (((Mock 0).AfterFunc 0 0).MoveTo noCalls 2 (storedOrder 0) 0).2.calls 0 = 1) := by
  decide

theorem MoveToLoop_nothing_due (env : Client) (fuel : Nat) (sched : Nat → List Nat)
    (mc : MockClock) (t : Int)
    (hq : mc.activeTimersQueue = [] ∨
      t < (deref mc.timers (heap.Pop mc.timers mc.activeTimersQueue).1).Date) :
    (MoveToLoop env (fuel + 1) sched t mc).1 = true ∧
    (MoveToLoop env (fuel + 1) sched t mc).2.trace = mc.trace ∧
    (MoveToLoop env (fuel + 1) sched t mc).2.timers = mc.timers ∧
    (MoveToLoop env (fuel + 1) sched t mc).2.updatedTimerUpdates = mc.updatedTimerUpdates ∧
    (MoveToLoop env (fuel + 1) sched t mc).2.inactiveTimers = mc.inactiveTimers := by
  simp only [MoveToLoop]
  split_ifs with h1 h2
  · simp
  · simp [heapPush, heapPop]
  · rcases hq with hq | hq
    · simp [hq, PriorityQueue.Len] at h1
    · exact absurd hq h2

/-- C5, amended. For a target `t` at or before `Now()`: when `MoveTo(t)`
returns, `Now()` is `t`, so the time is not greater than before and is the same
only for `t = Now()`; and when the queue is empty or the timer `heap.Pop` takes
from it has a `Date` after `t`, `MoveTo(t)` returns after one turn of its loop,
calls no callback and leaves the timers, the map of updates and the inactive
set as they were. -/
theorem MoveTo_backward_sets_now (env : Client) (fuel : Nat) (sched : Nat → List Nat)
    (mc : MockClock) (t : Int) (ht : t ≤ mc.Now) :
    ((mc.MoveTo env fuel sched t).1 = true →
      (mc.MoveTo env fuel sched t).2.Now = t ∧ (mc.MoveTo env fuel sched t).2.Now ≤ mc.Now) ∧
    ((mc.activeTimersQueue = [] ∨
        t < (deref mc.timers (heap.Pop mc.timers mc.activeTimersQueue).1).Date) →
      (mc.MoveTo env (fuel + 1) sched t).1 = true ∧
      (mc.MoveTo env (fuel + 1) sched t).2.trace = mc.trace ∧
      (mc.MoveTo env (fuel + 1) sched t).2.timers = mc.timers ∧
      (mc.MoveTo env (fuel + 1) sched t).2.updatedTimerUpdates = mc.updatedTimerUpdates ∧
      (mc.MoveTo env (fuel + 1) sched t).2.inactiveTimers = mc.inactiveTimers) := by
  constructor
  · intro h
    have := MoveTo_now env fuel sched mc t h
    exact ⟨this, by rw [this]; exact ht⟩
  · intro hq
    obtain ⟨h1, h2, h3, h4, h5⟩ := MoveToLoop_nothing_due env fuel sched mc t hq
    rw [MoveTo_fst, MoveTo_snd, h1]
    exact ⟨rfl, h2, h3, h4, h5⟩

/-- C5, amended, on a clock at `0` with a timer at `2`, moved to `-5`. -/
theorem MoveTo_backward_sets_now_witness :
    (-5 : Int) ≤ ((Mock 0).AfterFunc 2 0).Now ∧
    (((Mock 0).AfterFunc 2 0).MoveTo noCalls 1 (storedOrder 0) (-5)).2.Now = -5 ∧
    (((Mock 0).AfterFunc 2 0).MoveTo noCalls 1 (storedOrder 0) (-5)).2.trace = [] :=
  ⟨by decide,
   ((MoveTo_backward_sets_now noCalls 1 (storedOrder 0) ((Mock 0).AfterFunc 2 0) (-5)
      (by decide)).1 (by decide)).1,
   ((MoveTo_backward_sets_now noCalls 0 (storedOrder 0) ((Mock 0).AfterFunc 2 0) (-5)
      (by decide)).2 (Or.inr (by decide))).2.1⟩

/-! ## The repeating timer of the `Wrapper` tests -/

theorem rangeOrder_singleton {α : Type} (pick : List Nat) (x : α) :
    rangeOrder pick [x] = [x] := by
  cases pick with
  | nil => rfl
  | cons i pick =>
    cases pick <;> simp [rangeOrder, Nat.mod_one]

theorem heap_Pop_singleton (timers : List MockTimer) (x : Nat) :
    heap.Pop timers [x] = (x, []) := rfl

theorem heap_Push_nil (timers : List MockTimer) (x : Nat) :
    heap.Push timers [] x = [x] := by
  simp [heap.Push, heap.up, heap.upLoop, PriorityQueue.Push, PriorityQueue.Len]

theorem Wrapper.trace_count (T0 d : Int) (n : Nat) :
    (((List.range n).map (fun (i : Nat) => (⟨0, T0 + ((i : Int) + 1) * d,
      T0 + ((i : Int) + 1) * d⟩ : Fired))).filter (fun e => e.timer == 0)).length = n := by
  rw [List.filter_eq_self.2]
  · simp
  · intro e he
    obtain ⟨i, _, rfl⟩ := List.mem_map.1 he
    rfl

theorem Wrapper.count_eq (S F : Nat) (d : Int) (n : Nat) :
    Wrapper.count S F d 0 n =
      if S ≠ 0 ∧ S ≤ n then [.Stop 0]
      else if Wrapper.rearms S F n then [.Reset 0 d] else [] := by
  unfold Wrapper.count Wrapper.rearms
  by_cases h : S ≠ 0 ∧ S ≤ n
  · simp [h]
  · simp [h]

theorem Wrapper.count_cases (S F : Nat) (d : Int) (n : Nat) :
    (Wrapper.count S F d 0 n = [.Stop 0] ∧ Wrapper.rearms S F n = false) ∨
    (Wrapper.count S F d 0 n = [.Reset 0 d] ∧ Wrapper.rearms S F n = true) ∨
    (Wrapper.count S F d 0 n = [] ∧ Wrapper.rearms S F n = false) := by
  rw [Wrapper.count_eq]
  by_cases hs : S ≠ 0 ∧ S ≤ n
  · exact Or.inl ⟨by rw [if_pos hs], by simp [Wrapper.rearms, hs]⟩
  · rw [if_neg hs]
    cases hr : Wrapper.rearms S F n
    · exact Or.inr (Or.inr ⟨by simp, rfl⟩)
    · exact Or.inr (Or.inl ⟨by simp, rfl⟩)

/-- One turn of the loop on the wrapper's clock, when the timer is due. -/
theorem Wrapper.fire_clock (T0 d : Int) (S F n : Nat) (c : Int) (pick : List Nat)
    (h : Wrapper.rearms S F n = true) :
    (Wrapper.clock T0 d S F n c).heapPop.fire (Wrapper.client S F d) pick 0 =
      Wrapper.clock T0 d S F (n + 1) (T0 + ((n : Int) + 1) * d) := by
  have htr := Wrapper.trace_count T0 d (n + 1)
  rw [List.range_succ, List.map_append] at htr
  simp only [List.map_cons, List.map_nil] at htr
  have hmap : ∀ (a v : MockTimerUpdate),
      mapSet (if n = 0 then [] else [(0, a)]) 0 v = [(0, v)] := by
    intro a v
    split_ifs <;> simp [mapSet]
  unfold fire callFunc Wrapper.clock heapPop processUpdatedTimers
  simp only [h, if_true, heap_Pop_singleton, deref, List.getD_cons_zero, Wrapper.client, htr,
    hmap]
  rcases Wrapper.count_cases S F d (n + 1) with ⟨hc, hr⟩ | ⟨hc, hr⟩ | ⟨hc, hr⟩
  · rw [hc, hr]
    simp [mapSet, exec, MockClock.Stop, isHandle, rangeOrder_singleton, applyUpdate,
      isTimerActive, List.range_succ]
  · rw [hc, hr]
    simp [mapSet, exec, MockClock.Reset, isHandle, rangeOrder_singleton, applyUpdate,
      isTimerActive, setDate, heapPush, heap_Push_nil, List.range_succ]
    ring
  · rw [hc, hr]
    simp [mapSet, exec, isHandle, rangeOrder_singleton, applyUpdate, isTimerActive,
      List.range_succ]

theorem Wrapper.rearms_iff (S F n : Nat) :
    Wrapper.rearms S F n = true ↔ (S = 0 ∨ n < S) ∧ (F = 0 ∨ n < F) := by
  simp only [Wrapper.rearms, Bool.and_eq_true, Bool.not_eq_true', decide_eq_false_iff_not,
    decide_eq_true_eq]
  constructor
  · rintro ⟨h1, h2⟩
    refine ⟨?_, by omega⟩
    by_cases hS : S = 0
    · exact Or.inl hS
    · exact Or.inr (by
        by_contra hlt
        exact h1 ⟨hS, by omega⟩)
  · rintro ⟨h1, h2⟩
    exact ⟨fun ⟨hS, hle⟩ => by omega, by omega⟩

theorem capAt_of_rearms (S F m : Nat) (h : Wrapper.rearms S F (capAt S (capAt F m)) = true) :
    capAt S (capAt F m) = m := by
  rw [Wrapper.rearms_iff] at h
  unfold capAt at h ⊢
  split_ifs at h ⊢ <;> omega

theorem capAt_succ (S F m : Nat) (h : Wrapper.rearms S F m = true) :
    capAt S (capAt F (m + 1)) = m + 1 := by
  rw [Wrapper.rearms_iff] at h
  unfold capAt
  split_ifs <;> omega

theorem capAt_stays (S F m0 m : Nat) (h : Wrapper.rearms S F (capAt S (capAt F m0)) = false)
    (hm : m0 ≤ m) : capAt S (capAt F m) = capAt S (capAt F m0) := by
  have h2 : ¬ ((S = 0 ∨ capAt S (capAt F m0) < S) ∧ (F = 0 ∨ capAt S (capAt F m0) < F)) := by
    rw [← Wrapper.rearms_iff, h]
    simp
  unfold capAt at h2 ⊢
  split_ifs at h2 ⊢ <;> omega

/-- The loop on the wrapper's clock when the timer is stopped or finished: it
ends at once. -/
theorem Wrapper.loop_idle (T0 d : Int) (S F n : Nat) (c t : Int) (fuel : Nat)
    (sched : Nat → List Nat) (h : Wrapper.rearms S F n = false) :
    MoveToLoop (Wrapper.client S F d) (fuel + 1) sched t (Wrapper.clock T0 d S F n c) =
      (true, Wrapper.clock T0 d S F n c) := by
  simp [MoveToLoop, Wrapper.clock, h, PriorityQueue.Len]

/-- The loop on the wrapper's clock with the timer queued: it fires the timer
once per period up to the target. `m` periods have gone and `j` more fit before
the target. -/
theorem Wrapper.loop_periods (T0 d : Int) (hd : 0 < d) (S F : Nat) (t : Int) (j : Nat) :
    ∀ (m : Nat) (c : Int) (fuel : Nat) (sched : Nat → List Nat),
      capAt S (capAt F m) = m → j < fuel →
      T0 + ((m : Int) + j) * d ≤ t → t < T0 + ((m : Int) + j + 1) * d →
      ∃ c2, MoveToLoop (Wrapper.client S F d) fuel sched t (Wrapper.clock T0 d S F m c) =
        (true, Wrapper.clock T0 d S F (capAt S (capAt F (m + j))) c2) := by
  induction j with
  | zero =>
    intro m c fuel sched hm hfuel hlo hhi
    obtain ⟨fuel, rfl⟩ : ∃ f, fuel = f + 1 := ⟨fuel - 1, by omega⟩
    refine ⟨c, ?_⟩
    rw [show m + 0 = m from rfl, hm]
    cases hr : Wrapper.rearms S F m
    · exact Wrapper.loop_idle T0 d S F m c t fuel sched hr
    · have hlt : t < T0 + ((m : Int) + 1) * d := by simpa using hhi
      simp [MoveToLoop, Wrapper.clock, hr, PriorityQueue.Len, heap_Pop_singleton, deref, hlt,
        heapPop, heapPush, heap_Push_nil]
  | succ j ih =>
    intro m c fuel sched hm hfuel hlo hhi
    obtain ⟨fuel, rfl⟩ : ∃ f, fuel = f + 1 := ⟨fuel - 1, by omega⟩
    cases hr : Wrapper.rearms S F m
    · refine ⟨c, ?_⟩
      rw [Wrapper.loop_idle T0 d S F m c t fuel sched hr]
      have hr2 : Wrapper.rearms S F (capAt S (capAt F m)) = false := by rw [hm]; exact hr
      rw [capAt_stays S F m (m + (j + 1)) hr2 (by omega), hm]
    · have hdue : ¬ (T0 + ((m : Int) + 1) * d > t) := by
        have : ((m : Int) + 1) * d ≤ ((m : Int) + ((j + 1 : Nat) : Int)) * d :=
          Int.mul_le_mul_of_nonneg_right (by push_cast; omega) hd.le
        omega
      have hstep : MoveToLoop (Wrapper.client S F d) (fuel + 1) sched t
          (Wrapper.clock T0 d S F m c) =
          MoveToLoop (Wrapper.client S F d) fuel (fun i => sched (i + 1)) t
            ((Wrapper.clock T0 d S F m c).heapPop.fire (Wrapper.client S F d) (sched 0) 0) := by
        have hq : (Wrapper.clock T0 d S F m c).activeTimersQueue = [0] := by
          simp [Wrapper.clock, hr]
        have hdate : (deref (Wrapper.clock T0 d S F m c).timers 0).Date =
            T0 + ((m : Int) + 1) * d := by
          simp [Wrapper.clock, hr, deref]
        rw [MoveToLoop]
        rw [hq, heap_Pop_singleton, hdate]
        simp [PriorityQueue.Len, hdue]
      rw [hstep, Wrapper.fire_clock T0 d S F m c (sched 0) hr]
      obtain ⟨c2, hc2⟩ := ih (m + 1) (T0 + ((m : Int) + 1) * d) fuel (fun i => sched (i + 1))
        (capAt_succ S F m hr) (by omega)
        (by push_cast at hlo ⊢; rw [show (m : Int) + 1 + j = m + (j + 1) by ring]; exact hlo)
        (by push_cast at hhi ⊢; rw [show (m : Int) + 1 + j + 1 = m + (j + 1) + 1 by ring]; exact hhi)
      refine ⟨c2, ?_⟩
      rw [hc2, show m + 1 + j = m + (j + 1) by omega]

theorem periods_cast (T0 d t : Int) (hd : 0 < d) (ht : T0 ≤ t) :
    ((periods T0 d t : Nat) : Int) = (t - T0) / d :=
  Int.toNat_of_nonneg (Int.ediv_nonneg (by omega) hd.le)

theorem periods_window (T0 d t : Int) (hd : 0 < d) (ht : T0 ≤ t) :
    T0 + ((periods T0 d t : Nat) : Int) * d ≤ t ∧
    t < T0 + (((periods T0 d t : Nat) : Int) + 1) * d := by
  rw [periods_cast T0 d t hd ht]
  have h1 := Int.ediv_mul_le (t - T0) hd.ne'
  have h2 := Int.lt_ediv_add_one_mul_self (t - T0) hd
  constructor <;> omega

theorem periods_mono (T0 d c t : Int) (hd : 0 < d) (h : c ≤ t) :
    periods T0 d c ≤ periods T0 d t :=
  Int.toNat_le_toNat (Int.ediv_le_ediv hd (by omega))

theorem periods_eq (T0 d : Int) (hd : 0 < d) (m : Nat) (r : Int) (hr0 : 0 ≤ r) (hr : r < d) :
    periods T0 d (T0 + (m : Int) * d + r) = m := by
  unfold periods
  rw [show T0 + (m : Int) * d + r - T0 = r + (m : Int) * d by ring,
    Int.add_mul_ediv_right _ _ hd.ne', Int.ediv_eq_zero_of_lt hr0 hr]
  simp

/-- `MoveTo` on the wrapper's clock: from the count of the periods gone at `c`
to the count of the periods gone at the target. -/
theorem Wrapper.MoveTo_clock (T0 d : Int) (hd : 0 < d) (S F : Nat) (c t : Int)
    (hc : T0 ≤ c) (hct : c ≤ t) (fuel : Nat) (hfuel : periods T0 d t < fuel)
    (sched : Nat → List Nat) :
    (Wrapper.clock T0 d S F (capAt S (capAt F (periods T0 d c))) c).MoveTo
        (Wrapper.client S F d) fuel sched t =
      (true, Wrapper.clock T0 d S F (capAt S (capAt F (periods T0 d t))) t) := by
  have hmono := periods_mono T0 d c t hd hct
  obtain ⟨hlo, hhi⟩ := periods_window T0 d t hd (by omega)
  have hloop : ∃ c2, MoveToLoop (Wrapper.client S F d) fuel sched t
      (Wrapper.clock T0 d S F (capAt S (capAt F (periods T0 d c))) c) =
      (true, Wrapper.clock T0 d S F (capAt S (capAt F (periods T0 d t))) c2) := by
    cases hr : Wrapper.rearms S F (capAt S (capAt F (periods T0 d c)))
    · obtain ⟨fuel, rfl⟩ : ∃ f, fuel = f + 1 := ⟨fuel - 1, by omega⟩
      refine ⟨c, ?_⟩
      rw [Wrapper.loop_idle T0 d S F _ c t fuel sched hr, capAt_stays S F _ _ hr hmono]
    · have hm := capAt_of_rearms S F _ hr
      obtain ⟨j, hj⟩ : ∃ j, periods T0 d t = periods T0 d c + j := ⟨_, (Nat.add_sub_cancel' hmono).symm⟩
      rw [hm, hj]
      refine Wrapper.loop_periods T0 d hd S F t j (periods T0 d c) c fuel sched
        (by rw [hm]) (by omega) ?_ ?_
      · rw [hj] at hlo
        push_cast at hlo
        exact hlo
      · rw [hj] at hhi
        push_cast at hhi
        exact hhi
  obtain ⟨c2, hc2⟩ := hloop
  unfold MockClock.MoveTo
  rw [hc2]
  rfl

theorem Step.forward_le_endTime (steps : List Step) :
    ∀ now, Step.forward now steps = true → now ≤ Step.endTime now steps := by
  induction steps with
  | nil => intro now _; exact le_refl _
  | cons s rest ih =>
    intro now h
    simp only [Step.forward, Bool.and_eq_true, decide_eq_true_eq] at h
    exact le_trans h.1 (ih _ h.2)

/-- A test made of forward advances on the wrapper's clock: every advance
returns, and the count follows the periods gone. -/
theorem Wrapper.run_clock (T0 d : Int) (hd : 0 < d) (S F : Nat) (fuel : Nat)
    (steps : List Step) :
    ∀ (c : Int) (sched : Nat → Nat → List Nat), T0 ≤ c →
      (∀ s ∈ steps, s.isAdvance = true) → Step.forward c steps = true →
      periods T0 d (Step.endTime c steps) < fuel →
      run (Wrapper.client S F d) fuel sched steps
          (Wrapper.clock T0 d S F (capAt S (capAt F (periods T0 d c))) c) =
        (true, Wrapper.clock T0 d S F
          (capAt S (capAt F (periods T0 d (Step.endTime c steps)))) (Step.endTime c steps)) := by
  induction steps with
  | nil => intro c sched _ _ _ _; rfl
  | cons s rest ih =>
    intro c sched hc hadv hfwd hfuel
    simp only [Step.forward, Bool.and_eq_true, decide_eq_true_eq] at hfwd
    obtain ⟨hct, hrest⟩ := hfwd
    have hle := Step.forward_le_endTime rest _ hrest
    have hstep : step (Wrapper.client S F d) fuel (sched 0)
        (Wrapper.clock T0 d S F (capAt S (capAt F (periods T0 d c))) c) s =
        (true, Wrapper.clock T0 d S F (capAt S (capAt F (periods T0 d (Step.target c s))))
          (Step.target c s)) := by
      have hf : periods T0 d (Step.target c s) < fuel :=
        lt_of_le_of_lt (periods_mono T0 d _ _ hd hle) hfuel
      cases s with
      | call k => exact absurd (hadv _ (List.mem_cons_self _ _)) (by simp [Step.isAdvance])
      | MoveTo targetTime =>
        exact Wrapper.MoveTo_clock T0 d hd S F c targetTime hc hct fuel hf (sched 0)
      | MoveForward x =>
        exact Wrapper.MoveTo_clock T0 d hd S F c (c + x) hc hct fuel hf (sched 0)
    rw [run_cons, hstep]
    exact ih (Step.target c s) (fun n => sched (n + 1)) (le_trans hc hct)
      (fun s2 hs2 => hadv s2 (List.mem_cons_of_mem _ hs2)) hrest hfuel

theorem Wrapper.Start_clock (T0 d : Int) (S F : Nat) :
    (Mock T0).AfterFunc d 0 = Wrapper.clock T0 d S F 0 T0 := by
  have h : Wrapper.rearms S F 0 = true := by
    rw [Wrapper.rearms_iff]
    omega
  simp [Mock, MockClock.AfterFunc, Wrapper.clock, h, heap.Init, heap.InitLoop,
    PriorityQueue.Push, PriorityQueue.Len]

theorem Wrapper.clock_calls (T0 d : Int) (S F n : Nat) (c : Int) :
    (Wrapper.clock T0 d S F n c).calls 0 = n :=
  Wrapper.trace_count T0 d n

/-- C6. A fresh clock at `T0` holds the single timer of a `Wrapper` started
with period `d > 0`: its callback counts, and resets the timer until the count
reaches `StopAfter` (then it calls `Stop`) or `FinishAfter` (then it does
nothing), a limit `0` meaning no limit. After any sequence of forward advances
(`MoveTo` or `MoveForward`, each returning within `fuel > m` turns) that ends
at `T0 + m*d + r` with `0 ≤ r < d`, the callback has been called `min(m, k)`
times, `k` the limit: once per period gone, whether the periods were covered
one advance each or several in one `MoveTo`. -/
theorem Wrapper_fires_once_per_period (T0 d : Int) (hd : 0 < d) (StopAfter FinishAfter : Nat)
    (steps : List Step) (hadv : ∀ s ∈ steps, s.isAdvance = true)
    (hfwd : Step.forward T0 steps = true) (m : Nat) (r : Int) (hr0 : 0 ≤ r) (hr : r < d)
    (hend : Step.endTime T0 steps = T0 + (m : Int) * d + r) (fuel : Nat) (hfuel : m < fuel)
    (sched : Nat → Nat → List Nat) :
    (run (Wrapper.client StopAfter FinishAfter d) fuel sched steps
      ((Mock T0).AfterFunc d 0)).1 = true ∧
    (run (Wrapper.client StopAfter FinishAfter d) fuel sched steps
      ((Mock T0).AfterFunc d 0)).2.calls 0 = capAt StopAfter (capAt FinishAfter m) := by
  have hp0 : periods T0 d T0 = 0 := by simp [periods]
  have hpe : periods T0 d (Step.endTime T0 steps) = m := by
    rw [hend]
    exact periods_eq T0 d hd m r hr0 hr
  have h0 : capAt StopAfter (capAt FinishAfter 0) = 0 := by
    unfold capAt
    split_ifs <;> omega
  have hrun := Wrapper.run_clock T0 d hd StopAfter FinishAfter fuel steps T0 sched (le_refl _)
    hadv hfwd (by rw [hpe]; exact hfuel)
  rw [hp0, h0, hpe, ← Wrapper.Start_clock] at hrun
  rw [hrun]
  exact ⟨rfl, Wrapper.clock_calls _ _ _ _ _ _⟩

/-- C6, at the three `Wrapper` tests run to the fourth minute (`d = 60`
seconds), in four advances of one minute and in one `MoveTo`: no limit,
`FinishAfter: 3` and `StopAfter: 3`. -/
theorem Wrapper_fires_once_per_period_witness :
    (run (Wrapper.client 0 0 60) 5 storedOrder
        [.MoveForward 60, .MoveForward 60, .MoveForward 60, .MoveForward 60]
        ((Mock 0).AfterFunc 60 0)).2.calls 0 = 4 ∧
    (run (Wrapper.client 0 3 60) 5 storedOrder
        [.MoveForward 60, .MoveForward 60, .MoveForward 60, .MoveForward 60]
        ((Mock 0).AfterFunc 60 0)).2.calls 0 = 3 ∧
    (run (Wrapper.client 3 0 60) 5 storedOrder [.MoveTo 240]
        ((Mock 0).AfterFunc 60 0)).2.calls 0 = 3 :=
  ⟨(Wrapper_fires_once_per_period 0 60 (by decide) 0 0
      [.MoveForward 60, .MoveForward 60, .MoveForward 60, .MoveForward 60]
      (by decide) (by decide) 4 0 (by decide) (by decide) (by decide) 5 (by decide)
      storedOrder).2,
   (Wrapper_fires_once_per_period 0 60 (by decide) 0 3
      [.MoveForward 60, .MoveForward 60, .MoveForward 60, .MoveForward 60]
      (by decide) (by decide) 4 0 (by decide) (by decide) (by decide) 5 (by decide)
      storedOrder).2,
   (Wrapper_fires_once_per_period 0 60 (by decide) 3 0 [.MoveTo 240]
      (by decide) (by decide) 4 0 (by decide) (by decide) (by decide) 5 (by decide)
      storedOrder).2⟩

/-! ## The loops of `container/heap` end within their fuel -/

/-- More turns than `n - i` change nothing in `heap.down`: the loop has ended
by then. -/
theorem downLoop_fuel (timers : List MockTimer) (n fuel : Nat) :
    ∀ (pq : List Nat) (i : Nat), n ≤ fuel + i →
      heap.downLoop timers (fuel + 1) pq i n = heap.downLoop timers fuel pq i n := by
  induction fuel with
  | zero =>
    intro pq i h
    have : 2 * i + 1 ≥ n := by omega
    simp [heap.downLoop, this]
  | succ fuel ih =>
    intro pq i h
    rw [heap.downLoop]
    conv_rhs => rw [heap.downLoop]
    by_cases h1 : 2 * i + 1 ≥ n
    · simp [h1]
    · simp only [h1, if_false]
      split_ifs with h2 h3 h3
      · rfl
      · exact ih _ _ (by omega)
      · rfl
      · exact ih _ _ (by omega)

/-- More turns than `j` change nothing in `heap.up`. -/
theorem upLoop_fuel (timers : List MockTimer) (fuel : Nat) :
    ∀ (pq : List Nat) (j : Nat), j < fuel →
      heap.upLoop timers (fuel + 1) pq j = heap.upLoop timers fuel pq j := by
  induction fuel with
  | zero => intro pq j h; omega
  | succ fuel ih =>
    intro pq j h
    rw [heap.upLoop]
    conv_rhs => rw [heap.upLoop]
    split_ifs with h1
    · rfl
    · have hne : ¬ ((j - 1) / 2 = j) := by
        intro he
        simp [he] at h1
      exact ih _ _ (by omega)

/-! ## The tests of the repository, on the embedding -/

/-- `TestClockShouldTriggerAfterFuncOfMultipleTimers` (in minutes): the
assertions after each of the four advances hold. -/
theorem TestClockShouldTriggerAfterFuncOfMultipleTimers :
    callsAfter noCalls [.call (.AfterFunc 2 0), .call (.AfterFunc 4 1), .MoveForward 1] 0 = 0 ∧
    callsAfter noCalls [.call (.AfterFunc 2 0), .call (.AfterFunc 4 1), .MoveForward 1] 1 = 0 ∧
    callsAfter noCalls
      [.call (.AfterFunc 2 0), .call (.AfterFunc 4 1), .MoveForward 1, .MoveForward 1] 0 = 1 ∧
    callsAfter noCalls
      [.call (.AfterFunc 2 0), .call (.AfterFunc 4 1), .MoveForward 1, .MoveForward 1] 1 = 0 ∧
    callsAfter noCalls
      [.call (.AfterFunc 2 0), .call (.AfterFunc 4 1), .MoveForward 1, .MoveForward 1,
       .MoveForward 1] 1 = 0 ∧
    callsAfter noCalls
      [.call (.AfterFunc 2 0), .call (.AfterFunc 4 1), .MoveForward 1, .MoveForward 1,
       .MoveForward 1, .MoveForward 1] 0 = 1 ∧
    callsAfter noCalls
      [.call (.AfterFunc 2 0), .call (.AfterFunc 4 1), .MoveForward 1, .MoveForward 1,
       .MoveForward 1, .MoveForward 1] 1 = 1 := by
  decide

/-- `TestClockShouldResetOneActiveTimerFromAnotherOne` (in minutes): `t1` is
not called after the advances of `1` and `1`, and is called after the advance
of `2`. -/
theorem TestClockShouldResetOneActiveTimerFromAnotherOne :
    callsAfter (resetter 1 0 3)
      [.call (.AfterFunc 3 0), .call (.AfterFunc 1 1), .MoveForward 1] 0 = 0 ∧
    callsAfter (resetter 1 0 3)
      [.call (.AfterFunc 3 0), .call (.AfterFunc 1 1), .MoveForward 1, .MoveForward 1] 0 = 0 ∧
    callsAfter (resetter 1 0 3)
      [.call (.AfterFunc 3 0), .call (.AfterFunc 1 1), .MoveForward 1, .MoveForward 1,
       .MoveForward 2] 0 = 1 := by
  decide

/-- `TestClockShouldResetOneInactiveTimerFromAnotherOne` (in minutes): the
count is `1`, `1` and `2` after the three advances. -/
theorem TestClockShouldResetOneInactiveTimerFromAnotherOne :
    callsAfter (resetter 1 0 3)
      [.call (.AfterFunc 1 0), .call (.AfterFunc 2 1), .MoveForward 1] 0 = 1 ∧
    callsAfter (resetter 1 0 3)
      [.call (.AfterFunc 1 0), .call (.AfterFunc 2 1), .MoveForward 1, .MoveForward 2] 0 = 1 ∧
    callsAfter (resetter 1 0 3)
      [.call (.AfterFunc 1 0), .call (.AfterFunc 2 1), .MoveForward 1, .MoveForward 2,
       .MoveForward 3] 0 = 2 := by
  decide

/-- `TestDrivableTimer` (in seconds): the timer at `+1200` is called by the
last second only. -/
theorem TestDrivableTimer :
    callsAfter noCalls [.call (.AfterFunc 1200 0), .MoveForward 1140, .MoveForward 59] 0 = 0 ∧
    callsAfter noCalls
      [.call (.AfterFunc 1200 0), .MoveForward 1140, .MoveForward 59, .MoveForward 1] 0 = 1 := by
  decide

/-! ## The heap functions permute the queue -/

theorem Swap_length (pq : List Nat) (i j : Nat) : (PriorityQueue.Swap pq i j).length = pq.length := by
  simp [PriorityQueue.Swap]

theorem Swap_perm (pq : List Nat) (i j : Nat) (hi : i < pq.length) (hj : j < pq.length) :
    (PriorityQueue.Swap pq i j).Perm pq := by
  rw [List.perm_iff_count]
  intro b
  unfold PriorityQueue.Swap
  rw [List.getD_eq_getElem _ _ hi, List.getD_eq_getElem _ _ hj,
    List.count_set _ _ _ _ (by simpa using hj), List.count_set _ _ _ _ hi, List.getElem_set]
  have h1 : (if pq[i] == b then 1 else 0) ≤ pq.count b := by
    split_ifs with h
    · exact List.count_pos_iff.2 (by
        have := List.getElem_mem hi
        simpa [beq_iff_eq] using (eq_of_beq h) ▸ this)
    · exact Nat.zero_le _
  simp only [ite_self]
  split_ifs at h1 ⊢ <;> omega

theorem downLoop_perm (timers : List MockTimer) (n fuel : Nat) :
    ∀ (pq : List Nat) (i : Nat), n ≤ pq.length → (heap.downLoop timers fuel pq i n).Perm pq := by
  induction fuel with
  | zero => intro pq i _; exact List.Perm.refl _
  | succ fuel ih =>
    intro pq i hn
    rw [heap.downLoop]
    by_cases h1 : 2 * i + 1 ≥ n
    · simp [h1]
    · simp only [h1, if_false]
      split_ifs with h2 h3 h3
      · exact List.Perm.refl _
      · have hlt : 2 * i + 2 < n := by
          simp only [Bool.and_eq_true, decide_eq_true_eq] at h2
          exact h2.1
        exact (ih _ _ (by rw [Swap_length]; exact hn)).trans
          (Swap_perm pq i (2 * i + 2) (by omega) (by omega))
      · exact List.Perm.refl _
      · exact (ih _ _ (by rw [Swap_length]; exact hn)).trans
          (Swap_perm pq i (2 * i + 1) (by omega) (by omega))

theorem down_perm (timers : List MockTimer) (pq : List Nat) (i n : Nat) (hn : n ≤ pq.length) :
    (heap.down timers pq i n).Perm pq :=
  downLoop_perm timers n n pq i hn

theorem upLoop_perm (timers : List MockTimer) (fuel : Nat) :
    ∀ (pq : List Nat) (j : Nat), j < pq.length → (heap.upLoop timers fuel pq j).Perm pq := by
  induction fuel with
  | zero => intro pq j _; exact List.Perm.refl _
  | succ fuel ih =>
    intro pq j hj
    rw [heap.upLoop]
    have hp : (j - 1) / 2 ≤ j := by omega
    split_ifs with h1
    · exact List.Perm.refl _
    · exact (ih _ _ (by rw [Swap_length]; omega)).trans
        (Swap_perm pq _ j (by omega) hj)

theorem InitLoop_perm (timers : List MockTimer) (n k : Nat) :
    ∀ (pq : List Nat), n ≤ pq.length → (heap.InitLoop timers n k pq).Perm pq := by
  induction k with
  | zero => intro pq _; exact List.Perm.refl _
  | succ k ih =>
    intro pq hn
    rw [heap.InitLoop]
    have hd := down_perm timers pq k n hn
    exact (ih _ (by rw [hd.length_eq]; exact hn)).trans hd

theorem heap_Init_perm (timers : List MockTimer) (pq : List Nat) :
    (heap.Init timers pq).Perm pq :=
  InitLoop_perm timers _ _ pq (le_refl _)

theorem heap_Push_perm (timers : List MockTimer) (pq : List Nat) (x : Nat) :
    (heap.Push timers pq x).Perm (x :: pq) := by
  unfold heap.Push heap.up PriorityQueue.Push PriorityQueue.Len
  exact (upLoop_perm timers _ _ _ (by simp)).trans (List.perm_append_singleton x pq)

theorem heap_Pop_perm (timers : List MockTimer) (pq : List Nat) (h : pq ≠ []) :
    ((heap.Pop timers pq).1 :: (heap.Pop timers pq).2).Perm pq := by
  have hpos : 0 < pq.length := List.length_pos.2 h
  have hq : (heap.down timers (PriorityQueue.Swap pq 0 (PriorityQueue.Len pq - 1)) 0
      (PriorityQueue.Len pq - 1)).Perm pq :=
    (down_perm timers _ 0 _ (by simp [Swap_length, PriorityQueue.Len])).trans
      (Swap_perm pq 0 _ hpos (by simp [PriorityQueue.Len]; omega))
  unfold heap.Pop PriorityQueue.Pop
  generalize heap.down timers (PriorityQueue.Swap pq 0 (PriorityQueue.Len pq - 1)) 0
    (PriorityQueue.Len pq - 1) = q at hq
  have hlen : 0 < q.length := by rw [hq.length_eq]; exact hpos
  refine List.Perm.trans ?_ hq
  simp only
  rw [List.getD_eq_getElem _ _ (by omega)]
  have hsplit : q = q.take (q.length - 1) ++ [q[q.length - 1]] := by
    conv_lhs => rw [← List.take_append_drop (q.length - 1) q]
    congr 1
    rw [List.drop_eq_getElem_cons (by omega)]
    simp [show q.length - 1 + 1 = q.length by omega]
  conv_rhs => rw [hsplit]
  exact (List.perm_append_singleton _ _).symm

/-! ## Invariants of the loop of `MoveTo` and of a test -/

/-- A property kept by the push back of a timer that is not due and by the
firing of a timer is kept by the loop of `MoveTo`, ended or not. -/
theorem MoveToLoop_invariant (env : Client) (P : MockClock → Prop)
    (hback : ∀ mc : MockClock, P mc → mc.activeTimersQueue ≠ [] →
      P (mc.heapPop.heapPush (heap.Pop mc.timers mc.activeTimersQueue).1))
    (hfire : ∀ (mc : MockClock) (pick : List Nat), P mc → mc.activeTimersQueue ≠ [] →
      P (fire env pick mc.heapPop (heap.Pop mc.timers mc.activeTimersQueue).1))
    (fuel : Nat) :
    ∀ (sched : Nat → List Nat) (t : Int) (mc : MockClock), P mc →
      P (MoveToLoop env fuel sched t mc).2 := by
  induction fuel with
  | zero => intro sched t mc h; exact h
  | succ fuel ih =>
    intro sched t mc h
    simp only [MoveToLoop]
    split_ifs with h1 h2
    · exact h
    · exact hback mc h (by intro hq; simp [hq, PriorityQueue.Len] at h1)
    · exact ih _ _ _ (hfire mc (sched 0) h (by intro hq; simp [hq, PriorityQueue.Len] at h1))

/-- A property kept by the client calls, by the two ways out of a turn of the
loop of `MoveTo` and by the assignment of the time is kept by every test. -/
theorem run_invariant (env : Client) (P : MockClock → Prop)
    (hexec : ∀ (mc : MockClock) (c : Call), P mc → P (mc.exec c))
    (hback : ∀ mc : MockClock, P mc → mc.activeTimersQueue ≠ [] →
      P (mc.heapPop.heapPush (heap.Pop mc.timers mc.activeTimersQueue).1))
    (hfire : ∀ (mc : MockClock) (pick : List Nat), P mc → mc.activeTimersQueue ≠ [] →
      P (fire env pick mc.heapPop (heap.Pop mc.timers mc.activeTimersQueue).1))
    (htime : ∀ (mc : MockClock) (t : Int), P mc → P { mc with baseTime := t })
    (fuel : Nat) (steps : List Step) :
    ∀ (sched : Nat → Nat → List Nat) (mc : MockClock), P mc →
      P (run env fuel sched steps mc).2 := by
  have hmove : ∀ (sched : Nat → List Nat) (mc : MockClock) (t : Int), P mc →
      P (mc.MoveTo env fuel sched t).2 := by
    intro sched mc t h
    rw [MoveTo_snd]
    have hl := MoveToLoop_invariant env P hback hfire fuel sched t mc h
    split_ifs
    · exact htime _ _ hl
    · exact hl
  induction steps with
  | nil => intro sched mc h; exact h
  | cons s rest ih =>
    intro sched mc h
    have hs : P (step env fuel (sched 0) mc s).2 := by
      cases s with
      | call c => exact hexec mc c h
      | MoveTo targetTime => exact hmove _ _ _ h
      | MoveForward d => exact hmove _ _ _ h
    rw [run_cons]
    split_ifs
    · exact ih _ _ hs
    · exact hs

/-! ## Well-formed clocks -/

theorem mapSet_keys (m : List (Nat × MockTimerUpdate)) (k : Nat) (v : MockTimerUpdate) :
    (mapSet m k v).map Prod.fst =
      if k ∈ m.map Prod.fst then m.map Prod.fst else m.map Prod.fst ++ [k] := by
  induction m with
  | nil => simp [mapSet]
  | cons x m ih =>
    obtain ⟨k1, v1⟩ := x
    simp only [mapSet]
    by_cases hk : k1 = k
    · simp [hk]
    · have hk2 : ¬ k = k1 := fun h => hk h.symm
      simp only [hk, if_false, List.map_cons, ih, List.mem_cons, hk2, false_or]
      split_ifs <;> simp

theorem mapSet_keys_nodup (m : List (Nat × MockTimerUpdate)) (k : Nat) (v : MockTimerUpdate)
    (h : (m.map Prod.fst).Nodup) : ((mapSet m k v).map Prod.fst).Nodup := by
  rw [mapSet_keys]
  split_ifs with hk
  · exact h
  · exact List.nodup_append.2 ⟨h, List.nodup_singleton _, by
      intro a ha hb
      rw [List.mem_singleton] at hb
      exact hk (hb ▸ ha)⟩

theorem isHandle_lt (mc : MockClock) (timer : Nat) (h : mc.isHandle timer = true) :
    timer < mc.timers.length := by
  unfold isHandle at h
  split at h
  · rename_i t ht
    exact (List.get?_eq_some.1 ht).1
  · simp at h

theorem Wf.setLog {mc : MockClock} (h : Wf mc) (k : Nat) (v : MockTimerUpdate)
    (hk : k < mc.timers.length) :
    Wf { mc with updatedTimerUpdates := mapSet mc.updatedTimerUpdates k v } := by
  refine ⟨h.1, h.2.1, ?_, mapSet_keys_nodup _ _ _ h.2.2.2⟩
  intro u hu
  rcases mem_mapSet _ _ _ _ hu with rfl | hu
  · exact hk
  · exact h.2.2.1 u hu

theorem Wf.alloc {mc : MockClock} (h : Wf mc) (tm : MockTimer) :
    Wf { mc with timers := mc.timers ++ [tm],
                 activeTimersQueue := PriorityQueue.Push mc.activeTimersQueue mc.timers.length } := by
  obtain ⟨h1, h2, h3, h4⟩ := h
  refine ⟨?_, ?_, ?_, h4⟩
  · simp only [PriorityQueue.Push]
    exact List.nodup_append.2 ⟨h1, List.nodup_singleton _, by
      intro a ha hb
      rw [List.mem_singleton] at hb
      have := h2 a ha
      omega⟩
  · intro p hp
    simp only [PriorityQueue.Push, List.mem_append, List.mem_singleton] at hp
    simp only [List.length_append, List.length_singleton]
    rcases hp with hp | hp
    · have := h2 p hp
      omega
    · omega
  · intro u hu
    have := h3 u hu
    simp only [List.length_append, List.length_singleton]
    omega

theorem exec_wf (mc : MockClock) (c : Call) (h : Wf mc) : Wf (mc.exec c) := by
  cases c with
  | AfterFunc duration fn =>
    have := h.alloc ⟨mc.timersCounter, mc.baseTime + duration, some fn, true⟩
    exact ⟨this.1, this.2.1, this.2.2.1, this.2.2.2⟩
  | After d => exact h.alloc _
  | Stop timer =>
    simp only [exec, MockClock.Stop]
    split_ifs with hh
    · exact h.setLog _ _ (isHandle_lt mc timer hh)
    · exact h
  | Reset timer d =>
    simp only [exec, MockClock.Reset]
    split_ifs with hh
    · exact h.setLog _ _ (isHandle_lt mc timer hh)
    · exact h

theorem foldl_exec_wf (cs : List Call) (mc : MockClock) (h : Wf mc) : Wf (cs.foldl exec mc) := by
  induction cs generalizing mc with
  | nil => exact h
  | cons c cs ih => exact ih _ (exec_wf mc c h)

theorem isTimerActive_iff (mc : MockClock) (timer : Nat) :
    mc.isTimerActive timer = true ↔ timer ∈ mc.activeTimersQueue := by
  simp [isTimerActive]

theorem applyUpdate_timers_length (mc : MockClock) (u : Nat × MockTimerUpdate) :
    (mc.applyUpdate u).timers.length = mc.timers.length := by
  unfold applyUpdate
  split <;> split <;> simp [heapInit, heapPush, setDate, deleteFromActiveTimers,
    pushToInactiveTimers]

theorem applyUpdate_wf (mc : MockClock) (u : Nat × MockTimerUpdate) (h : Wf mc)
    (hu : u.1 < mc.timers.length) : Wf (mc.applyUpdate u) := by
  obtain ⟨h1, h2, h3, h4⟩ := h
  unfold applyUpdate
  split
  · split_ifs with ha
    · refine ⟨(heap_Init_perm _ _).nodup_iff.2 h1, ?_, ?_, h4⟩
      · intro p hp
        have := h2 p ((heap_Init_perm _ _).mem_iff.1 hp)
        simpa [heapInit, setDate] using this
      · intro v hv
        have := h3 v hv
        simpa [heapInit, setDate] using this
    · have hna : u.1 ∉ mc.activeTimersQueue := by
        intro hin
        exact ha ((isTimerActive_iff _ _).2 hin)
      refine ⟨(heap_Push_perm _ _ _).nodup_iff.2 (List.nodup_cons.2 ⟨hna, h1⟩), ?_, ?_, h4⟩
      · intro p hp
        have hp2 := (heap_Push_perm _ _ _).mem_iff.1 hp
        simp only [heapPush, setDate, List.length_modify]
        rcases List.mem_cons.1 hp2 with rfl | hp2
        · exact hu
        · exact h2 p hp2
      · intro v hv
        have := h3 v hv
        simpa [heapPush, setDate] using this
  · split_ifs with ha
    · refine ⟨(heap_Init_perm _ _).nodup_iff.2 (h1.filter _), ?_, h3, h4⟩
      intro p hp
      exact h2 p (List.mem_of_mem_filter ((heap_Init_perm _ _).mem_iff.1 hp))
    · exact ⟨h1, h2, h3, h4⟩

theorem foldl_applyUpdate_wf (us : List (Nat × MockTimerUpdate)) (mc : MockClock) (h : Wf mc)
    (hus : ∀ u ∈ us, u.1 < mc.timers.length) : Wf (us.foldl applyUpdate mc) := by
  induction us generalizing mc with
  | nil => exact h
  | cons u us ih =>
    rw [List.foldl_cons]
    refine ih _ (applyUpdate_wf mc u h (hus u (List.mem_cons_self _ _))) ?_
    intro v hv
    rw [applyUpdate_timers_length]
    exact hus v (List.mem_cons_of_mem _ hv)

theorem processUpdatedTimers_wf (pick : List Nat) (mc : MockClock) (h : Wf mc) :
    Wf (mc.processUpdatedTimers pick) :=
  foldl_applyUpdate_wf _ mc h (fun u hu => h.2.2.1 u (mem_rangeOrder _ _ _ hu))

theorem callFunc_wf (env : Client) (mc : MockClock) (timer : Nat) (h : Wf mc) :
    Wf (mc.callFunc env timer) := by
  unfold callFunc
  split
  · exact foldl_exec_wf _ _ h
  · exact h

theorem heapPop_mem (mc : MockClock) (hq : mc.activeTimersQueue ≠ []) :
    (heap.Pop mc.timers mc.activeTimersQueue).1 ∈ mc.activeTimersQueue :=
  (heap_Pop_perm mc.timers _ hq).mem_iff.1 (List.mem_cons_self _ _)

theorem heapPop_wf (mc : MockClock) (h : Wf mc) (hq : mc.activeTimersQueue ≠ []) :
    Wf mc.heapPop ∧ (heap.Pop mc.timers mc.activeTimersQueue).1 ∉ mc.heapPop.activeTimersQueue := by
  have hp := heap_Pop_perm mc.timers _ hq
  have hnd := List.nodup_cons.1 (hp.nodup_iff.2 h.1)
  refine ⟨⟨hnd.2, ?_, h.2.2.1, h.2.2.2⟩, hnd.1⟩
  intro p hpm
  exact h.2.1 p (hp.mem_iff.1 (List.mem_cons_of_mem _ hpm))

theorem back_wf (mc : MockClock) (h : Wf mc) (hq : mc.activeTimersQueue ≠ []) :
    Wf (mc.heapPop.heapPush (heap.Pop mc.timers mc.activeTimersQueue).1) := by
  have hp := (heap_Push_perm mc.timers (heap.Pop mc.timers mc.activeTimersQueue).2
    (heap.Pop mc.timers mc.activeTimersQueue).1).trans (heap_Pop_perm mc.timers _ hq)
  refine ⟨hp.nodup_iff.2 h.1, ?_, h.2.2.1, h.2.2.2⟩
  intro p hpm
  exact h.2.1 p (hp.mem_iff.1 hpm)

theorem fire_wf (env : Client) (pick : List Nat) (mc : MockClock) (h : Wf mc)
    (hq : mc.activeTimersQueue ≠ []) :
    Wf (fire env pick mc.heapPop (heap.Pop mc.timers mc.activeTimersQueue).1) := by
  unfold fire
  refine processUpdatedTimers_wf _ _ (callFunc_wf env _ _ ?_)
  have hw := ((heapPop_wf mc h hq).1).setLog (heap.Pop mc.timers mc.activeTimersQueue).1
    ⟨.StopMockTimerUpdateType, 0⟩ (h.2.1 _ (heapPop_mem mc hq))
  exact ⟨hw.1, hw.2.1, hw.2.2.1, hw.2.2.2⟩

theorem Mock_wf (baseTime : Int) : Wf (Mock baseTime) := by
  simp [Wf, Mock, heap.Init, heap.InitLoop, PriorityQueue.Len]

theorem run_wf (env : Client) (fuel : Nat) (sched : Nat → Nat → List Nat) (steps : List Step)
    (mc : MockClock) (h : Wf mc) : Wf (run env fuel sched steps mc).2 :=
  run_invariant env Wf exec_wf back_wf (fun mc pick h hq => fire_wf env pick mc h hq)
    (fun _ _ h => ⟨h.1, h.2.1, h.2.2.1, h.2.2.2⟩) fuel steps sched mc h

/-! ## The handles and the map of updates -/

theorem mapSet_mapSet (m : List (Nat × MockTimerUpdate)) (k : Nat) (v w : MockTimerUpdate) :
    mapSet (mapSet m k v) k w = mapSet m k w := by
  induction m with
  | nil => simp [mapSet]
  | cons x m ih =>
    obtain ⟨k1, v1⟩ := x
    by_cases hk : k1 = k
    · simp [mapSet, hk]
    · simp [mapSet, hk, ih]

theorem mapGet_mapSet_self (m : List (Nat × MockTimerUpdate)) (k : Nat) (v : MockTimerUpdate) :
    mapGet (mapSet m k v) k = some v := by
  induction m with
  | nil => simp [mapSet, mapGet]
  | cons x m ih =>
    obtain ⟨k1, v1⟩ := x
    by_cases hk : k1 = k
    · simp [mapSet, mapGet, hk]
    · simp [mapSet, mapGet, hk, ih]

theorem mapGet_mapSet_ne (m : List (Nat × MockTimerUpdate)) (k k2 : Nat) (v : MockTimerUpdate)
    (h : k2 ≠ k) : mapGet (mapSet m k v) k2 = mapGet m k2 := by
  have h2 : ¬ k = k2 := fun e => h e.symm
  induction m with
  | nil => simp [mapSet, mapGet, h2]
  | cons x m ih =>
    obtain ⟨k1, v1⟩ := x
    by_cases hk : k1 = k
    · subst hk
      simp [mapSet, mapGet, h2]
    · by_cases hk2 : k1 = k2
      · subst hk2
        simp [mapSet, mapGet, hk]
      · simp [mapSet, mapGet, hk, hk2, ih]

theorem isHandle_Stop (mc : MockClock) (h k : Nat) :
    (mc.Stop h).isHandle k = mc.isHandle k := by
  unfold MockClock.Stop
  split_ifs <;> rfl

theorem isHandle_Reset (mc : MockClock) (h k : Nat) (d : Int) :
    (mc.Reset h d).isHandle k = mc.isHandle k := by
  unfold MockClock.Reset
  split_ifs <;> rfl

theorem Stop_Reset (mc : MockClock) (h : Nat) (d : Int) :
    (mc.Stop h).Reset h d = mc.Reset h d := by
  unfold MockClock.Reset
  rw [isHandle_Stop]
  unfold MockClock.Stop
  split_ifs with hh
  · simp [mapSet_mapSet]
  · rfl

theorem Reset_Stop (mc : MockClock) (h : Nat) (d : Int) :
    (mc.Reset h d).Stop h = mc.Stop h := by
  unfold MockClock.Stop
  rw [isHandle_Reset]
  unfold MockClock.Reset
  split_ifs with hh
  · simp [mapSet_mapSet]
  · rfl

theorem Stop_Stop (mc : MockClock) (h : Nat) : (mc.Stop h).Stop h = mc.Stop h := by
  have hh := isHandle_Stop mc h h
  unfold MockClock.Stop at hh ⊢
  split_ifs at hh ⊢ with h1
  · simp [mapSet_mapSet]
  · rfl
  · rfl

/-- C12. Last write wins in the map of updates. For every clock and every
timer `h`, `h.Stop()` followed by `h.Reset(d)` leaves the clock that
`h.Reset(d)` alone leaves, and `h.Reset(d)` followed by `h.Stop()` leaves the
clock that `h.Stop()` alone leaves; for a handle returned by `AfterFunc` the
entry of `h` is then the reset to `Now() + d`, resp. the stop. And the map never
holds two entries for one timer: its keys are distinct in every state a test
reaches from a fresh clock. -/
theorem Stop_Reset_last_write_wins (mc : MockClock) (h : Nat) (d : Int) :
    (mc.Stop h).Reset h d = mc.Reset h d ∧ (mc.Reset h d).Stop h = mc.Stop h ∧
    (mc.isHandle h = true →
      mapGet ((mc.Stop h).Reset h d).updatedTimerUpdates h =
        some ⟨.ResetMockTimerUpdateType, mc.Now + d⟩ ∧
      mapGet ((mc.Reset h d).Stop h).updatedTimerUpdates h =
        some ⟨.StopMockTimerUpdateType, 0⟩) ∧
    (∀ (env : Client) (fuel : Nat) (sched : Nat → Nat → List Nat) (steps : List Step)
      (T0 : Int),
      ((run env fuel sched steps (Mock T0)).2.updatedTimerUpdates.map Prod.fst).Nodup) := by
  refine ⟨Stop_Reset mc h d, Reset_Stop mc h d, ?_, ?_⟩
  · intro hh
    rw [Stop_Reset, Reset_Stop]
    simp [MockClock.Reset, MockClock.Stop, hh, mapGet_mapSet_self, Now]
  · intro env fuel sched steps T0
    exact (run_wf env fuel sched steps (Mock T0) (Mock_wf T0)).2.2.2

/-- C12, on a clock at `7` with one timer: `Stop` then `Reset(3)` leaves the
single entry "reset to `10`". -/
theorem Stop_Reset_last_write_wins_witness :
    ((Mock 7).AfterFunc 5 0).isHandle 0 = true ∧
    ((((Mock 7).AfterFunc 5 0).Stop 0).Reset 0 3).updatedTimerUpdates =
      [(0, ⟨.ResetMockTimerUpdateType, 10⟩)] ∧
    mapGet ((((Mock 7).AfterFunc 5 0).Stop 0).Reset 0 3).updatedTimerUpdates 0 =
      some ⟨.ResetMockTimerUpdateType, ((Mock 7).AfterFunc 5 0).Now + 3⟩ :=
  ⟨by decide, by decide,
   ((Stop_Reset_last_write_wins ((Mock 7).AfterFunc 5 0) 0 3).2.2.1 (by decide)).1⟩

/-- C13. `Stop` is idempotent: for every clock and every timer `h`, a second
`h.Stop()` returns what the first returned, `true`, and leaves the clock the
first left, queue, inactive set, map and time included; so every later test
runs the same from both. -/
theorem Stop_idempotent (mc : MockClock) (h : Nat) :
    MockTimer.Stop (MockTimer.Stop mc h).2 h = MockTimer.Stop mc h ∧
    (MockTimer.Stop mc h).1 = true ∧
    ∀ (env : Client) (fuel : Nat) (sched : Nat → Nat → List Nat) (steps : List Step),
      run env fuel sched steps (MockTimer.Stop (MockTimer.Stop mc h).2 h).2 =
        run env fuel sched steps (MockTimer.Stop mc h).2 := by
  have h1 : MockTimer.Stop (MockTimer.Stop mc h).2 h = MockTimer.Stop mc h := by
    simp only [MockTimer.Stop, Stop_Stop]
  refine ⟨h1, rfl, ?_⟩
  intro env fuel sched steps
  rw [h1]

/-- C14. `h.Stop()` and `h.Reset(d)` change nothing in the clock but the
entry of `h` in the map of updates: the queue (contents and order), the
inactive set, the time, the ID counter, the timers with their dates and the
record of calls are as before, and so is the entry of every other timer. -/
theorem Stop_Reset_frame (mc : MockClock) (h : Nat) (d : Int) :
    ((mc.Stop h).activeTimersQueue = mc.activeTimersQueue ∧
      (mc.Stop h).inactiveTimers = mc.inactiveTimers ∧
      (mc.Stop h).baseTime = mc.baseTime ∧ (mc.Stop h).timersCounter = mc.timersCounter ∧
      (mc.Stop h).timers = mc.timers ∧ (mc.Stop h).trace = mc.trace ∧
      ∀ k, k ≠ h → mapGet (mc.Stop h).updatedTimerUpdates k = mapGet mc.updatedTimerUpdates k) ∧
    ((mc.Reset h d).activeTimersQueue = mc.activeTimersQueue ∧
      (mc.Reset h d).inactiveTimers = mc.inactiveTimers ∧
      (mc.Reset h d).baseTime = mc.baseTime ∧
      (mc.Reset h d).timersCounter = mc.timersCounter ∧
      (mc.Reset h d).timers = mc.timers ∧ (mc.Reset h d).trace = mc.trace ∧
      ∀ k, k ≠ h →
        mapGet (mc.Reset h d).updatedTimerUpdates k = mapGet mc.updatedTimerUpdates k) := by
  constructor
  · unfold MockClock.Stop
    split_ifs
    · exact ⟨rfl, rfl, rfl, rfl, rfl, rfl, fun k hk => mapGet_mapSet_ne _ _ _ _ hk⟩
    · exact ⟨rfl, rfl, rfl, rfl, rfl, rfl, fun _ _ => rfl⟩
  · unfold MockClock.Reset
    split_ifs
    · exact ⟨rfl, rfl, rfl, rfl, rfl, rfl, fun k hk => mapGet_mapSet_ne _ _ _ _ hk⟩
    · exact ⟨rfl, rfl, rfl, rfl, rfl, rfl, fun _ _ => rfl⟩

/-- C18. In every state a test reaches from a fresh clock, by calls of
`AfterFunc`, `After`, `Stop` and `Reset` from the test or from callbacks and by
advances, returned or not, the active queue holds no timer twice. -/
theorem queue_holds_no_timer_twice (env : Client) (fuel : Nat)
    (sched : Nat → Nat → List Nat) (steps : List Step) (T0 : Int) :
    (run env fuel sched steps (Mock T0)).2.activeTimersQueue.Nodup :=
  (run_wf env fuel sched steps (Mock T0) (Mock_wf T0)).1

/-! ## Timers made by `After`, and the order of the queue -/

/-- C15, failing input: `AfterFunc(1)`, `After(1)`, `After(2)` on a fresh
clock. The three timers all carry the ID `0`: `After` assigns no ID and leaves
the counter alone, so the IDs neither grow nor differ. -/
theorem After_assigns_no_ID :
    afterIDsTest.2.timers.map MockTimer.ID = [0, 0, 0] ∧ afterIDsTest.2.timersCounter = 1 ∧
    ¬ ((deref afterIDsTest.2.timers 0).ID < (deref afterIDsTest.2.timers 1).ID) ∧
    ¬ ((deref afterIDsTest.2.timers 1).ID < (deref afterIDsTest.2.timers 2).ID) := by
  decide

/-- C17, failing input: after `AfterFunc(4)` and `AfterFunc(2)` on a fresh
clock the queue is `[0, 1]` with the dates `4` and `2`: its second element is
`Less` than its first, so it is no heap, and `heap.Pop` takes timer `0`, which
is not the earliest. -/
theorem heap_Pop_not_the_earliest :
    laterDueFirstClock.activeTimersQueue = [0, 1] ∧
    PriorityQueue.Less laterDueFirstClock.timers laterDueFirstClock.activeTimersQueue 1 0 = true ∧
    (heap.Pop laterDueFirstClock.timers laterDueFirstClock.activeTimersQueue).1 = 0 ∧
    (deref laterDueFirstClock.timers 1).Date < (deref laterDueFirstClock.timers 0).Date := by
  decide

/-! ## The map of updates is never emptied -/

theorem foldl_applyUpdate_log (us : List (Nat × MockTimerUpdate)) (mc : MockClock) :
    (us.foldl applyUpdate mc).updatedTimerUpdates = mc.updatedTimerUpdates := by
  induction us generalizing mc with
  | nil => rfl
  | cons u us ih => simp [List.foldl_cons, ih, applyUpdate_log]

theorem processUpdatedTimers_log (pick : List Nat) (mc : MockClock) :
    (mc.processUpdatedTimers pick).updatedTimerUpdates = mc.updatedTimerUpdates :=
  foldl_applyUpdate_log _ mc

theorem mapGet_mapSet_isSome (m : List (Nat × MockTimerUpdate)) (k k2 : Nat)
    (v : MockTimerUpdate) (h : (mapGet m k2).isSome = true) :
    (mapGet (mapSet m k v) k2).isSome = true := by
  by_cases hk : k2 = k
  · rw [hk, mapGet_mapSet_self]
    rfl
  · rw [mapGet_mapSet_ne _ _ _ _ hk]
    exact h

theorem exec_keeps_entry (k : Nat) (mc : MockClock) (c : Call)
    (h : (mapGet mc.updatedTimerUpdates k).isSome = true) :
    (mapGet (mc.exec c).updatedTimerUpdates k).isSome = true := by
  cases c with
  | AfterFunc duration fn => exact h
  | After d => exact h
  | Stop timer =>
    simp only [exec, MockClock.Stop]
    split_ifs
    · exact mapGet_mapSet_isSome _ _ _ _ h
    · exact h
  | Reset timer d =>
    simp only [exec, MockClock.Reset]
    split_ifs
    · exact mapGet_mapSet_isSome _ _ _ _ h
    · exact h

theorem foldl_exec_keeps_entry (k : Nat) (cs : List Call) (mc : MockClock)
    (h : (mapGet mc.updatedTimerUpdates k).isSome = true) :
    (mapGet (cs.foldl exec mc).updatedTimerUpdates k).isSome = true := by
  induction cs generalizing mc with
  | nil => exact h
  | cons c cs ih => exact ih _ (exec_keeps_entry k mc c h)

theorem fire_keeps_entry (env : Client) (k : Nat) (pick : List Nat) (mc : MockClock)
    (timer : Nat) (h : (mapGet mc.updatedTimerUpdates k).isSome = true) :
    (mapGet (mc.fire env pick timer).updatedTimerUpdates k).isSome = true := by
  unfold fire
  rw [processUpdatedTimers_log]
  unfold callFunc
  split
  · exact foldl_exec_keeps_entry k _ _ (mapGet_mapSet_isSome _ _ _ _ h)
  · exact mapGet_mapSet_isSome _ _ _ _ h

theorem fire_has_entry (env : Client) (pick : List Nat) (mc : MockClock) (timer : Nat) :
    (mapGet (mc.fire env pick timer).updatedTimerUpdates timer).isSome = true := by
  unfold fire
  rw [processUpdatedTimers_log]
  have h0 : (mapGet (mapSet mc.updatedTimerUpdates timer
      ⟨.StopMockTimerUpdateType, 0⟩) timer).isSome = true := by
    rw [mapGet_mapSet_self]
    rfl
  unfold callFunc
  split
  · exact foldl_exec_keeps_entry timer _ _ h0
  · exact h0

/-- C19, as stated, fails: after `AfterFunc(1)` and `MoveTo(1)` on a fresh
clock, a `MoveTo` that fired one timer and returned, the map of updates still
holds the stop entry of the timer, and applying the map again leaves it
there. -/
theorem log_drained_counterexample :
    oneShotTest.1 = true ∧ oneShotTest.2.calls 0 = 1 ∧
    oneShotTest.2.updatedTimerUpdates = [(0, ⟨.StopMockTimerUpdateType, 0⟩)] ∧
    (oneShotTest.2.processUpdatedTimers []).updatedTimerUpdates ≠ [] := by
  decide

/-- C19, amended. `processUpdatedTimers` does not drain the map of updates: it
returns with the map exactly as it was, in every state and for every order of
the range. A turn of the loop of `MoveTo` leaves an entry for the timer it
fired. And a timer that has an entry keeps one, the same or a later one,
through every client call and every advance: entries are overwritten, never
removed, so they are applied again after every later callback. -/
theorem log_is_kept (env : Client) :
    (∀ (pick : List Nat) (mc : MockClock),
      (mc.processUpdatedTimers pick).updatedTimerUpdates = mc.updatedTimerUpdates) ∧
    (∀ (pick : List Nat) (mc : MockClock) (timer : Nat),
      (mapGet (mc.fire env pick timer).updatedTimerUpdates timer).isSome = true) ∧
    (∀ (fuel : Nat) (sched : Nat → Nat → List Nat) (steps : List Step) (mc : MockClock)
      (k : Nat), (mapGet mc.updatedTimerUpdates k).isSome = true →
      (mapGet (run env fuel sched steps mc).2.updatedTimerUpdates k).isSome = true) := by
  refine ⟨processUpdatedTimers_log, fire_has_entry env, ?_⟩
  intro fuel sched steps mc k h
  exact run_invariant env (fun m => (mapGet m.updatedTimerUpdates k).isSome = true)
    (exec_keeps_entry k) (fun _ h _ => h) (fun m pick h _ => fire_keeps_entry env k pick _ _ h)
    (fun _ _ h => h) fuel steps sched mc h

/-- C19, amended, on the clock left by the one-shot test: the stop entry of
timer `0` is still there after a new timer was made, fired and the map
applied. -/
theorem log_is_kept_witness :
    (mapGet oneShotTest.2.updatedTimerUpdates 0).isSome = true ∧
    (mapGet (run noCalls 5 storedOrder [.call (.AfterFunc 1 1), .MoveForward 1]
      oneShotTest.2).2.updatedTimerUpdates 0).isSome = true :=
  ⟨by decide, (log_is_kept noCalls).2.2 5 storedOrder [.call (.AfterFunc 1 1), .MoveForward 1]
    oneShotTest.2 0 (by decide)⟩

/-! ## The inactive set -/

theorem exec_inactive (mc : MockClock) (c : Call) :
    (mc.exec c).inactiveTimers = mc.inactiveTimers := by
  cases c <;> simp only [exec, MockClock.AfterFunc, MockClock.After, MockClock.Stop,
    MockClock.Reset] <;> first | rfl | (split <;> rfl)

theorem foldl_exec_inactive (cs : List Call) (mc : MockClock) :
    (cs.foldl exec mc).inactiveTimers = mc.inactiveTimers := by
  induction cs generalizing mc with
  | nil => rfl
  | cons c cs ih => simp [List.foldl_cons, ih, exec_inactive]

theorem mem_setInsert (s : List Nat) (k p : Nat) : p ∈ setInsert s k ↔ p ∈ s ∨ p = k := by
  unfold setInsert
  split_ifs with h
  · constructor
    · exact Or.inl
    · rintro (h1 | rfl)
      · exact h1
      · exact h
  · simp

theorem mem_applyUpdate_inactive (mc : MockClock) (u : Nat × MockTimerUpdate) (p : Nat) :
    p ∈ (mc.applyUpdate u).inactiveTimers ↔
      p ∈ mc.inactiveTimers ∨
        (u.2.Kind = .StopMockTimerUpdateType ∧ p = u.1 ∧ u.1 ∈ mc.activeTimersQueue) := by
  unfold applyUpdate
  split
  · rename_i hk
    split_ifs <;> simp [heapInit, heapPush, setDate, hk]
  · rename_i hk
    split_ifs with ha
    · have := (isTimerActive_iff mc u.1).1 ha
      simp [pushToInactiveTimers, deleteFromActiveTimers, mem_setInsert, hk, this]
    · have : u.1 ∉ mc.activeTimersQueue := fun hin => ha ((isTimerActive_iff mc u.1).2 hin)
      simp [hk, this]

theorem mem_applyUpdate_queue (mc : MockClock) (u : Nat × MockTimerUpdate) (p : Nat) :
    p ∈ (mc.applyUpdate u).activeTimersQueue ↔
      (u.2.Kind = .ResetMockTimerUpdateType ∧ (p ∈ mc.activeTimersQueue ∨ p = u.1)) ∨
      (u.2.Kind = .StopMockTimerUpdateType ∧ p ∈ mc.activeTimersQueue ∧ p ≠ u.1) := by
  unfold applyUpdate
  split
  · rename_i hk
    split_ifs with ha
    · have hin : u.1 ∈ mc.activeTimersQueue := (isTimerActive_iff _ _).1 ha
      simp only [heapInit, setDate, (heap_Init_perm _ _).mem_iff, hk, true_and, false_and,
        or_false, reduceCtorEq]
      constructor
      · exact Or.inl
      · rintro (h | rfl)
        · exact h
        · exact hin
    · simp only [heapPush, setDate, (heap_Push_perm _ _ _).mem_iff, List.mem_cons, hk, true_and,
        false_and, or_false, reduceCtorEq]
      exact or_comm
  · rename_i hk
    split_ifs with ha
    · simp [pushToInactiveTimers, deleteFromActiveTimers, (heap_Init_perm _ _).mem_iff, hk,
        List.mem_filter]
    · have hnin : u.1 ∉ mc.activeTimersQueue := fun hin => ha ((isTimerActive_iff mc u.1).2 hin)
      simp only [hk, true_and, false_and, false_or, reduceCtorEq]
      constructor
      · intro hp
        exact ⟨hp, fun he => hnin (he ▸ hp)⟩
      · exact fun h => h.1

theorem foldl_applyUpdate_inactive_mono (p : Nat) (us : List (Nat × MockTimerUpdate))
    (mc : MockClock) (h : p ∈ mc.inactiveTimers) :
    p ∈ (us.foldl applyUpdate mc).inactiveTimers := by
  induction us generalizing mc with
  | nil => exact h
  | cons u us ih => exact ih _ ((mem_applyUpdate_inactive mc u p).2 (Or.inl h))

theorem fire_inactive_mono (env : Client) (p : Nat) (pick : List Nat) (mc : MockClock)
    (timer : Nat) (h : p ∈ mc.inactiveTimers) : p ∈ (mc.fire env pick timer).inactiveTimers := by
  unfold fire processUpdatedTimers
  refine foldl_applyUpdate_inactive_mono p _ _ ?_
  unfold callFunc
  split
  · rw [foldl_exec_inactive]
    exact h
  · exact h

/-- C16, as stated, fails. After `AfterFunc(1)` and `MoveTo(1)` the timer has
fired and is in neither the queue nor the inactive set. And after `Y` at `1`
stops `X` (at `5`) and `Z` at `2` resets it, within `MoveTo(2)`, `X` is in the
queue and in the inactive set. -/
theorem inactive_set_counterexample :
    (oneShotTest.1 = true ∧ oneShotTest.2.calls 0 = 1 ∧
      (0 : Nat) ∉ oneShotTest.2.activeTimersQueue ∧ (0 : Nat) ∉ oneShotTest.2.inactiveTimers) ∧
    (stopThenResetTest.1 = true ∧ (1 : Nat) ∈ stopThenResetTest.2.activeTimersQueue ∧
      (1 : Nat) ∈ stopThenResetTest.2.inactiveTimers) := by
  decide

/-- C16, amended. A timer enters the inactive set when a stop entry is applied
to it while it is in the active queue, and only then; it is then out of the
queue. Applying a reset entry puts the timer in the queue and leaves the
inactive set as it is, the client calls leave the inactive set as it is, and no
call or advance takes a timer out of it. (So a timer that fired and was not
reset is in neither, and a timer stopped and then reset is in both.) -/
theorem inactive_set_only_grows (env : Client) :
    (∀ (mc : MockClock) (u : Nat × MockTimerUpdate) (p : Nat),
      p ∈ (mc.applyUpdate u).inactiveTimers ↔
        p ∈ mc.inactiveTimers ∨
          (u.2.Kind = .StopMockTimerUpdateType ∧ p = u.1 ∧ u.1 ∈ mc.activeTimersQueue)) ∧
    (∀ (mc : MockClock) (u : Nat × MockTimerUpdate),
      u.2.Kind = .StopMockTimerUpdateType → u.1 ∉ (mc.applyUpdate u).activeTimersQueue) ∧
    (∀ (mc : MockClock) (u : Nat × MockTimerUpdate),
      u.2.Kind = .ResetMockTimerUpdateType → u.1 ∈ (mc.applyUpdate u).activeTimersQueue) ∧
    (∀ (mc : MockClock) (c : Call), (mc.exec c).inactiveTimers = mc.inactiveTimers) ∧
    (∀ (fuel : Nat) (sched : Nat → Nat → List Nat) (steps : List Step) (mc : MockClock)
      (p : Nat), p ∈ mc.inactiveTimers → p ∈ (run env fuel sched steps mc).2.inactiveTimers) := by
  refine ⟨mem_applyUpdate_inactive, ?_, ?_, exec_inactive, ?_⟩
  · intro mc u hk hin
    rcases (mem_applyUpdate_queue mc u u.1).1 hin with h | h
    · rw [hk] at h
      exact absurd h.1 (by simp)
    · exact h.2.2 rfl
  · intro mc u hk
    exact (mem_applyUpdate_queue mc u u.1).2 (Or.inl ⟨hk, Or.inr rfl⟩)
  · intro fuel sched steps mc p h
    exact run_invariant env (fun m => p ∈ m.inactiveTimers)
      (fun m c h => by
        show p ∈ (m.exec c).inactiveTimers
        rw [exec_inactive]
        exact h) (fun _ h _ => h)
      (fun m pick h _ => fire_inactive_mono env p pick _ _ h) (fun _ _ h => h)
      fuel steps sched mc h

/-- C16, amended, on the clock of the stop-then-reset test: `X` is in the
inactive set and stays there through a later advance. -/
theorem inactive_set_only_grows_witness :
    (1 : Nat) ∈ stopThenResetTest.2.inactiveTimers ∧
    (1 : Nat) ∈ (run stopThenReset 5 storedOrder [.MoveForward 10]
      stopThenResetTest.2).2.inactiveTimers :=
  ⟨by decide, (inactive_set_only_grows stopThenReset).2.2.2.2 5 storedOrder [.MoveForward 10]
    stopThenResetTest.2 1 (by decide)⟩

/-! ## The order in which the map of updates is applied -/

theorem cons_eraseIdx_perm {α : Type} (l : List α) :
    ∀ (i : Nat) (h : i < l.length), (l[i] :: l.eraseIdx i).Perm l := by
  induction l with
  | nil => intro i h; simp at h
  | cons x l ih =>
    intro i h
    cases i with
    | zero => exact List.Perm.refl _
    | succ i =>
      simp only [List.getElem_cons_succ, List.eraseIdx_cons_succ]
      exact (List.Perm.swap _ _ _).trans ((ih i (by simpa using h)).cons x)

theorem rangeOrder_perm {α : Type} (pick : List Nat) :
    ∀ m : List α, (rangeOrder pick m).Perm m := by
  induction pick with
  | nil => intro m; exact List.Perm.refl _
  | cons i pick ih =>
    intro m
    cases m with
    | nil => exact List.Perm.refl _
    | cons x m =>
      simp only [rangeOrder]
      have hlt : i % (x :: m).length < (x :: m).length := Nat.mod_lt _ (by simp)
      rw [List.getD_eq_getElem _ _ hlt]
      exact ((ih _).cons _).trans (cons_eraseIdx_perm _ _ hlt)

theorem SameSets.refl (a : MockClock) : SameSets a a :=
  ⟨rfl, fun _ => Iff.rfl, fun _ => Iff.rfl⟩

theorem SameSets.trans {a b c : MockClock} (h1 : SameSets a b) (h2 : SameSets b c) :
    SameSets a c :=
  ⟨h1.1.trans h2.1, fun p => (h1.2.1 p).trans (h2.2.1 p), fun p => (h1.2.2 p).trans (h2.2.2 p)⟩

theorem applyUpdate_timers (mc : MockClock) (u : Nat × MockTimerUpdate) :
    (mc.applyUpdate u).timers =
      if u.2.Kind = .ResetMockTimerUpdateType then
        mc.timers.modify (fun t => { t with Date := u.2.Date }) u.1
      else mc.timers := by
  unfold applyUpdate
  split
  · rename_i hk
    split_ifs <;> simp [heapInit, heapPush, setDate]
  · rename_i hk
    have hne : ¬ u.2.Kind = .ResetMockTimerUpdateType := by rw [hk]; simp
    split_ifs <;> rfl

/-- Applying one entry to two clocks with the same sets gives clocks with the
same sets. -/
theorem applyUpdate_sameSets (a b : MockClock) (u : Nat × MockTimerUpdate)
    (h : SameSets a b) : SameSets (a.applyUpdate u) (b.applyUpdate u) := by
  obtain ⟨ht, hq, hi⟩ := h
  refine ⟨?_, ?_, ?_⟩
  · rw [applyUpdate_timers, applyUpdate_timers, ht]
  · intro p
    rw [mem_applyUpdate_queue, mem_applyUpdate_queue, hq p]
  · intro p
    rw [mem_applyUpdate_inactive, mem_applyUpdate_inactive, hi p, hq u.1]

/-- Two entries for different timers can be applied in either order. -/
theorem applyUpdate_comm (a : MockClock) (u v : Nat × MockTimerUpdate) (h : u.1 ≠ v.1) :
    SameSets ((a.applyUpdate u).applyUpdate v) ((a.applyUpdate v).applyUpdate u) := by
  refine ⟨?_, ?_, ?_⟩
  · simp only [applyUpdate_timers]
    split_ifs
    · exact List.modify_modify_ne _ _ _ h
    · rfl
    · rfl
    · rfl
  · intro p
    simp only [mem_applyUpdate_queue]
    have h2 : v.1 ≠ u.1 := fun e => h e.symm
    by_cases hpu : p = u.1 <;> by_cases hpv : p = v.1 <;>
      cases hu : u.2.Kind <;> cases hv : v.2.Kind <;> simp_all
  · intro p
    simp only [mem_applyUpdate_inactive, mem_applyUpdate_queue]
    have h2 : v.1 ≠ u.1 := fun e => h e.symm
    by_cases hpu : p = u.1 <;> by_cases hpv : p = v.1 <;>
      cases hu : u.2.Kind <;> cases hv : v.2.Kind <;> simp_all

theorem foldl_applyUpdate_sameSets (us : List (Nat × MockTimerUpdate)) (a b : MockClock)
    (h : SameSets a b) : SameSets (us.foldl applyUpdate a) (us.foldl applyUpdate b) := by
  induction us generalizing a b with
  | nil => exact h
  | cons u us ih => exact ih _ _ (applyUpdate_sameSets a b u h)

/-- The entries of a map, one per key, can be applied in any order. -/
theorem foldl_applyUpdate_perm (l1 l2 : List (Nat × MockTimerUpdate)) (hp : l1.Perm l2) :
    ∀ a : MockClock, (l1.map Prod.fst).Nodup →
      SameSets (l1.foldl applyUpdate a) (l2.foldl applyUpdate a) := by
  induction hp with
  | nil => intro a _; exact SameSets.refl _
  | cons x _ ih =>
    intro a hnd
    simp only [List.foldl_cons]
    exact ih _ (List.nodup_cons.1 (by simpa using hnd)).2
  | swap x y l =>
    intro a hnd
    simp only [List.foldl_cons]
    have hne : y.1 ≠ x.1 := by
      simp only [List.map_cons, List.nodup_cons, List.mem_cons, not_or] at hnd
      exact hnd.1.1
    exact foldl_applyUpdate_sameSets l _ _ (applyUpdate_comm a y x hne)
  | trans h1 _ ih1 ih2 =>
    intro a hnd
    exact (ih1 a hnd).trans (ih2 a ((h1.map Prod.fst).nodup_iff.1 hnd))

/-- C20. Applying the map of updates does not depend on the order in which
its entries are visited. For every clock whose map holds each key once, as a Go
map does, any two orders of its entries, and so any two runs of
`processUpdatedTimers`, end with the same timers and dates, the same set of
active timers and the same inactive set. -/
theorem processUpdatedTimers_order_independent (mc : MockClock)
    (hmap : (mc.updatedTimerUpdates.map Prod.fst).Nodup) :
    (∀ l1 l2 : List (Nat × MockTimerUpdate),
      l1.Perm mc.updatedTimerUpdates → l2.Perm mc.updatedTimerUpdates →
      SameSets (l1.foldl applyUpdate mc) (l2.foldl applyUpdate mc)) ∧
    (∀ pick1 pick2 : List Nat,
      SameSets (mc.processUpdatedTimers pick1) (mc.processUpdatedTimers pick2)) := by
  have h1 : ∀ l1 l2 : List (Nat × MockTimerUpdate),
      l1.Perm mc.updatedTimerUpdates → l2.Perm mc.updatedTimerUpdates →
      SameSets (l1.foldl applyUpdate mc) (l2.foldl applyUpdate mc) := by
    intro l1 l2 hp1 hp2
    exact foldl_applyUpdate_perm l1 l2 (hp1.trans hp2.symm) mc
      ((hp1.map Prod.fst).nodup_iff.2 hmap)
  exact ⟨h1, fun pick1 pick2 => h1 _ _ (rangeOrder_perm pick1 _) (rangeOrder_perm pick2 _)⟩

/-- C20, on the clock left by the stop-then-reset test, whose map holds three
entries: ranging from the last entry backwards and ranging in stored order end
with the same sets. -/
theorem processUpdatedTimers_order_independent_witness :
    (stopThenResetTest.2.updatedTimerUpdates.map Prod.fst).Nodup ∧
    SameSets (stopThenResetTest.2.processUpdatedTimers [2, 1])
      (stopThenResetTest.2.processUpdatedTimers []) :=
  ⟨by decide, (processUpdatedTimers_order_independent stopThenResetTest.2 (by decide)).2 [2, 1] []⟩

/-! ## The time the callbacks observe -/

theorem deref_append_date (N : Int) (timers : List MockTimer) (tm : MockTimer) (p : Nat)
    (h : N ≤ (deref timers p).Date) (htm : N ≤ tm.Date) :
    N ≤ (deref (timers ++ [tm]) p).Date := by
  by_cases hp : p < timers.length
  · rw [deref_append_left _ _ _ hp]
    exact h
  · by_cases hp2 : p = timers.length
    · have : deref (timers ++ [tm]) p = tm := by
        unfold deref
        rw [List.getD_append_right _ _ _ _ (by omega), hp2]
        simp
      rw [this]
      exact htm
    · have h1 : deref (timers ++ [tm]) p = ⟨0, 0, none, false⟩ := by
        unfold deref
        exact List.getD_eq_default _ _ (by simp; omega)
      have h2 : deref timers p = ⟨0, 0, none, false⟩ := by
        unfold deref
        exact List.getD_eq_default _ _ (by omega)
      rw [h1]
      rw [h2] at h
      exact h

theorem deref_setDate_self (timers : List MockTimer) (k : Nat) (d : Int)
    (hk : k < timers.length) :
    (deref (timers.modify (fun t => { t with Date := d }) k) k).Date = d := by
  unfold deref
  rw [List.getD_eq_getElem _ _ (by simpa using hk)]
  simp

theorem deref_setDate_date (N : Int) (timers : List MockTimer) (k p : Nat) (d : Int)
    (h : N ≤ (deref timers p).Date) (hd : N ≤ d) :
    N ≤ (deref (timers.modify (fun t => { t with Date := d }) k) p).Date := by
  by_cases hpk : k = p
  · subst hpk
    by_cases hk : k < timers.length
    · rw [deref_setDate_self _ _ _ hk]
      exact hd
    · rw [List.modify_eq_self (by omega)]
      exact h
  · rw [deref_modify_ne _ _ _ _ hpk]
    exact h

theorem exec_queuedFrom (N : Int) (mc : MockClock) (c : Call) (h : QueuedFrom N mc)
    (hb : N ≤ mc.baseTime) (hc : 0 ≤ c.duration) : QueuedFrom N (mc.exec c) := by
  obtain ⟨hq, hl⟩ := h
  have halloc : ∀ tm : MockTimer, N ≤ tm.Date →
      QueuedFrom N { mc with
        timers := mc.timers ++ [tm],
        activeTimersQueue := PriorityQueue.Push mc.activeTimersQueue mc.timers.length } := by
    intro tm htm
    refine ⟨?_, ?_⟩
    · intro p hp
      simp only [PriorityQueue.Push, List.mem_append, List.mem_singleton] at hp
      rcases hp with hp | rfl
      · exact deref_append_date N _ tm p (hq p hp) htm
      · have : deref (mc.timers ++ [tm]) mc.timers.length = tm := by
          unfold deref
          rw [List.getD_append_right _ _ _ _ (le_refl _)]
          simp
        rw [this]
        exact htm
    · intro u hu hk
      have := hl u hu hk
      simp only [List.length_append, List.length_singleton]
      exact ⟨by omega, this.2⟩
  cases c with
  | AfterFunc duration fn =>
    simp only [Call.duration] at hc
    have := halloc ⟨mc.timersCounter, mc.baseTime + duration, some fn, true⟩
      (show N ≤ mc.baseTime + duration by omega)
    exact ⟨this.1, this.2⟩
  | After d =>
    simp only [Call.duration] at hc
    exact halloc ⟨0, mc.baseTime + d, none, false⟩ (show N ≤ mc.baseTime + d by omega)
  | Stop timer =>
    simp only [exec, MockClock.Stop]
    split_ifs
    · refine ⟨hq, ?_⟩
      intro u hu hk
      rcases mem_mapSet _ _ _ _ hu with rfl | hu
      · simp at hk
      · exact hl u hu hk
    · exact ⟨hq, hl⟩
  | Reset timer d =>
    simp only [exec, MockClock.Reset]
    split_ifs with hh
    · refine ⟨hq, ?_⟩
      intro u hu hk
      rcases mem_mapSet _ _ _ _ hu with rfl | hu
      · simp only [Call.duration] at hc
        exact ⟨isHandle_lt mc timer hh, show N ≤ mc.baseTime + d by omega⟩
      · exact hl u hu hk
    · exact ⟨hq, hl⟩

theorem foldl_exec_queuedFrom (N : Int) (cs : List Call) (mc : MockClock)
    (h : QueuedFrom N mc) (hb : N ≤ mc.baseTime) (hc : ∀ c ∈ cs, 0 ≤ c.duration) :
    QueuedFrom N (cs.foldl exec mc) := by
  induction cs generalizing mc with
  | nil => exact h
  | cons c cs ih =>
    rw [List.foldl_cons]
    exact ih _ (exec_queuedFrom N mc c h hb (hc c (List.mem_cons_self _ _)))
      (by rw [exec_baseTime]; exact hb) (fun c2 hc2 => hc c2 (List.mem_cons_of_mem _ hc2))

theorem applyUpdate_queuedFrom (N : Int) (mc : MockClock) (u : Nat × MockTimerUpdate)
    (h : QueuedFrom N mc) (hu : u ∈ mc.updatedTimerUpdates) :
    QueuedFrom N (mc.applyUpdate u) := by
  obtain ⟨hq, hl⟩ := h
  refine ⟨?_, ?_⟩
  · intro p hp
    rw [applyUpdate_timers]
    rcases (mem_applyUpdate_queue mc u p).1 hp with ⟨hk, hp⟩ | ⟨hk, hp, _⟩
    · rw [if_pos hk]
      obtain ⟨hlt, hdate⟩ := hl u hu hk
      rcases hp with hp | rfl
      · exact deref_setDate_date N _ _ _ _ (hq p hp) hdate
      · rw [deref_setDate_self _ _ _ hlt]
        exact hdate
    · rw [if_neg (by rw [hk]; simp)]
      exact hq p hp
  · rw [applyUpdate_log, applyUpdate_timers_length]
    exact hl

theorem foldl_applyUpdate_queuedFrom (N : Int) (us : List (Nat × MockTimerUpdate))
    (mc : MockClock) (h : QueuedFrom N mc) (hus : ∀ u ∈ us, u ∈ mc.updatedTimerUpdates) :
    QueuedFrom N (us.foldl applyUpdate mc) := by
  induction us generalizing mc with
  | nil => exact h
  | cons u us ih =>
    rw [List.foldl_cons]
    refine ih _ (applyUpdate_queuedFrom N mc u h (hus u (List.mem_cons_self _ _))) ?_
    intro v hv
    rw [applyUpdate_log]
    exact hus v (List.mem_cons_of_mem _ hv)

theorem back_queuedFrom (N : Int) (mc : MockClock) (h : QueuedFrom N mc)
    (hq : mc.activeTimersQueue ≠ []) :
    QueuedFrom N (mc.heapPop.heapPush (heap.Pop mc.timers mc.activeTimersQueue).1) := by
  have hp := (heap_Push_perm mc.timers (heap.Pop mc.timers mc.activeTimersQueue).2
    (heap.Pop mc.timers mc.activeTimersQueue).1).trans (heap_Pop_perm mc.timers _ hq)
  exact ⟨fun p hpm => h.1 p (hp.mem_iff.1 hpm), h.2⟩

theorem fire_queuedFrom (env : Client) (N : Int) (pick : List Nat) (mc : MockClock)
    (henv : ∀ k tr, ∀ c ∈ env k tr, 0 ≤ c.duration) (h : QueuedFrom N mc)
    (hq : mc.activeTimersQueue ≠ []) :
    QueuedFrom N (fire env pick mc.heapPop (heap.Pop mc.timers mc.activeTimersQueue).1) ∧
    N ≤ (deref mc.timers (heap.Pop mc.timers mc.activeTimersQueue).1).Date := by
  have hdate : N ≤ (deref mc.timers (heap.Pop mc.timers mc.activeTimersQueue).1).Date :=
    h.1 _ (heapPop_mem mc hq)
  refine ⟨?_, hdate⟩
  have hpop := heap_Pop_perm mc.timers _ hq
  have h1 : QueuedFrom N { mc.heapPop with
      baseTime := (deref mc.heapPop.timers (heap.Pop mc.timers mc.activeTimersQueue).1).Date,
      updatedTimerUpdates := mapSet mc.heapPop.updatedTimerUpdates
        (heap.Pop mc.timers mc.activeTimersQueue).1 ⟨.StopMockTimerUpdateType, 0⟩ } := by
    refine ⟨fun p hpm => h.1 p (hpop.mem_iff.1 (List.mem_cons_of_mem _ hpm)), ?_⟩
    intro u hu hk
    rcases mem_mapSet _ _ _ _ hu with rfl | hu
    · simp at hk
    · exact h.2 u hu hk
  unfold fire processUpdatedTimers
  refine foldl_applyUpdate_queuedFrom N _ _ ?_ (fun u hu => mem_rangeOrder _ _ _ hu)
  unfold callFunc
  split
  · exact foldl_exec_queuedFrom N _ _ ⟨h1.1, h1.2⟩ hdate (henv _ _)
  · exact ⟨h1.1, h1.2⟩

/-- In the loop of `MoveTo` every callback is called with the clock at the
date of its timer. -/
theorem MoveToLoop_now_eq_date (env : Client) (fuel : Nat) (sched : Nat → List Nat) (t : Int)
    (mc : MockClock) :
    ∃ new, (MoveToLoop env fuel sched t mc).2.trace = mc.trace ++ new ∧
      ∀ e ∈ new, e.now = e.date := by
  refine MoveToLoop_invariant env
    (fun m => ∃ new, m.trace = mc.trace ++ new ∧ ∀ e ∈ new, e.now = e.date)
    (fun m h _ => h) ?_ fuel sched t mc ⟨[], by simp⟩
  rintro m pick ⟨new, hnew, hall⟩ _
  refine ⟨new ++ [⟨(heap.Pop m.timers m.activeTimersQueue).1,
    (deref m.timers (heap.Pop m.timers m.activeTimersQueue).1).Date,
    (deref m.timers (heap.Pop m.timers m.activeTimersQueue).1).Date⟩], ?_, ?_⟩
  · rw [fire_trace, ← List.append_assoc, ← hnew]
    rfl
  · intro e he
    rcases List.mem_append.1 he with he | he
    · exact hall e he
    · rw [List.mem_singleton] at he
      rw [he]

/-- When no queued timer and no pending reset has a date before `N` and the
callbacks pass no negative duration, no callback is called in the loop of
`MoveTo` with the clock before `N`. -/
theorem MoveToLoop_now_ge (env : Client) (N : Int)
    (henv : ∀ k tr, ∀ c ∈ env k tr, 0 ≤ c.duration) (fuel : Nat) (sched : Nat → List Nat)
    (t : Int) (mc : MockClock) (h : QueuedFrom N mc) :
    ∃ new, (MoveToLoop env fuel sched t mc).2.trace = mc.trace ++ new ∧
      ∀ e ∈ new, N ≤ e.now := by
  have := MoveToLoop_invariant env
    (fun m => QueuedFrom N m ∧ ∃ new, m.trace = mc.trace ++ new ∧ ∀ e ∈ new, N ≤ e.now)
    (fun m h hq => ⟨back_queuedFrom N m h.1 hq, h.2⟩) ?_ fuel sched t mc
    ⟨h, [], by simp⟩
  · exact this.2
  rintro m pick ⟨hd, new, hnew, hall⟩ hq
  obtain ⟨hd2, hdate⟩ := fire_queuedFrom env N pick m henv hd hq
  refine ⟨hd2, new ++ [⟨(heap.Pop m.timers m.activeTimersQueue).1,
    (deref m.timers (heap.Pop m.timers m.activeTimersQueue).1).Date,
    (deref m.timers (heap.Pop m.timers m.activeTimersQueue).1).Date⟩], ?_, ?_⟩
  · rw [fire_trace, ← List.append_assoc, ← hnew]
    rfl
  · intro e he
    rcases List.mem_append.1 he with he | he
    · exact hall e he
    · rw [List.mem_singleton] at he
      rw [he]
      exact hdate

/-- C11, as stated, fails: on a fresh clock at `0` with a timer made by
`AfterFunc(-5)`, `MoveTo(0)`, whose target is the current time, calls the
callback with `Now() = -5`, before the value `0` that `Now()` had at the
call. -/
theorem observed_now_counterexample :
    ((Mock 0).AfterFunc (-5) 0).Now ≤ 0 ∧ negativeDurationTest.1 = true ∧
    negativeDurationTest.2.trace = [⟨0, -5, -5⟩] ∧
    ¬ (∀ e ∈ negativeDurationTest.2.trace, ((Mock 0).AfterFunc (-5) 0).Now ≤ e.now) := by
  decide

/-- C11, amended. During any `MoveTo(t)`, returning or not, each callback is
called with `Now()` equal to the `Date` its timer has when taken from the
queue, and that value is at or before `t`. When, at the call, no timer in the
active queue has a `Date` before `Now()`, no pending reset has a date before
`Now()` (and each names an allocated timer), and the callbacks pass no negative
duration to `AfterFunc`, `After` and `Reset`, that value is also at or after
the value `Now()` had at the call. Timers that have fired or were stopped may
have any date. -/
theorem MoveTo_observed_now (env : Client) (fuel : Nat) (sched : Nat → List Nat)
    (mc : MockClock) (t : Int) :
    ∃ new, (mc.MoveTo env fuel sched t).2.trace = mc.trace ++ new ∧
      (∀ e ∈ new, e.now = e.date ∧ e.now ≤ t) ∧
      (QueuedFrom mc.Now mc → (∀ k tr, ∀ c ∈ env k tr, 0 ≤ c.duration) →
        ∀ e ∈ new, mc.Now ≤ e.now) := by
  obtain ⟨new, hnew, hdue⟩ := MoveToLoop_fires_due env fuel sched t mc
  obtain ⟨new2, hnew2, heq⟩ := MoveToLoop_now_eq_date env fuel sched t mc
  have h2 : new2 = new := List.append_cancel_left (hnew2.symm.trans hnew)
  subst h2
  refine ⟨new2, by rw [MoveTo_snd_trace]; exact hnew, ?_, ?_⟩
  · intro e he
    exact ⟨heq e he, by rw [heq e he]; exact hdue e he⟩
  · intro hd henv
    obtain ⟨new3, hnew3, hge⟩ := MoveToLoop_now_ge env mc.Now henv fuel sched t mc hd
    have h3 : new3 = new2 := List.append_cancel_left (hnew3.symm.trans hnew)
    subst h3
    exact hge

/-- C11, amended, on the clock of the repository's test of two timers after
its third advance (time `3`, the fired timer dated `2`, the queued one `4`),
moved to `4`: the condition holds though a fired timer is dated before
`Now()`, and the callback then called observes `4`. -/
theorem MoveTo_observed_now_witness :
    repoClock.Now = 3 ∧ (deref repoClock.timers 0).Date = 2 ∧ QueuedFrom repoClock.Now repoClock ∧
    (repoClock.MoveTo noCalls 5 (storedOrder 0) 4).2.trace = repoClock.trace ++ [⟨1, 4, 4⟩] ∧
    ∃ new, (repoClock.MoveTo noCalls 5 (storedOrder 0) 4).2.trace = repoClock.trace ++ new ∧
      (∀ e ∈ new, e.now = e.date ∧ e.now ≤ 4) ∧ ∀ e ∈ new, repoClock.Now ≤ e.now := by
  have hd : QueuedFrom repoClock.Now repoClock := ⟨by decide, by decide⟩
  obtain ⟨new, h1, h2, h3⟩ := MoveTo_observed_now noCalls 5 (storedOrder 0) repoClock 4
  exact ⟨by decide, by decide, hd, by decide, new, h1, h2, h3 hd (by simp [noCalls])⟩

end smartclock
